import Mathlib

/-!
# rmlint `list.c`: the group store, alias resolution, admission and device lists

A shallow embedding of `src/trash/list.c`.

* A `GQueue` of `RmFile *` (one size group) is a `List RmFile`; every record
  carries its own address in `addr`, and the nullable pointer
  `hardlinked_original` is an `Option` holding the address it points to.
* The `GSequence` `list->size_groups` is a `List (List RmFile)`; a
  `GSequenceIter` is a position in it, the end iterator being the length.  The
  hash table `list->size_table` is the list of its keys.
* An `RmFile *` handed to a store operation is the position `(group, member)`
  of the record, which is what its `file_group` and `list_node` fields give.
* The reentrant mutex `list->lock` is the depth at which it is held.
* `guint` and `gsize` counters are natural numbers reduced modulo `2^32` and
  `2^64` at every update.
* A null dereference makes a function return `none`.
* The helpers `rm_util_basename`, `rm_util_parent_node`, `cmp_orig_criteria`
  and `rm_offset_lookup` live in other files of the program, and the macro
  `GINT_TO_POINTER` in a platform header; they are parameters of every
  definition that calls them.
-/

namespace RmLint

/-! ## Data model -/

/-- The fields of `RmFile` that `list.c` reads or writes.  `addr` is the address
of the record itself (the value of an `RmFile *` pointing at it). -/
structure RmFile where
  addr : Nat
  path : String
  fsize : Nat := 0
  node : Nat := 0
  dev : Nat := 0
  offset : Nat := 0
  hash_offset : Nat := 0
  disk_offsets : Nat := 0
  in_ppath : Bool := false
  hardlinked_original : Option Nat := none
deriving DecidableEq

/-- The three flags of `RmSettings` that `list.c` consults. -/
structure RmSettings where
  find_hardlinked_dupes : Bool
  must_match_original : Bool
  keep_all_originals : Bool
deriving DecidableEq

/-- The store `RmFileList`: the ordered collection of size groups, the keys
present in the size index `size_table`, and the recursion depth at which the
calling thread holds the reentrant mutex `lock`. -/
structure RmFileList where
  size_groups : List (List RmFile)
  size_table : List Nat := []
  lock : Nat := 0
deriving DecidableEq

/-! ## Library routines used by `list.c` -/

/-- Two's-complement truncation of an integer to a 32-bit `gint`. -/
def to_gint (x : Int) : Int := (x + 2 ^ 31) % 2 ^ 32 - 2 ^ 31

/-- Character-wise comparison behind `strcmp`; the C standard fixes only the
sign of the result, rendered here as `-1`, `0` or `1`. -/
def strcmp_chars : List Char → List Char → Int
  | [], [] => 0
  | [], _ :: _ => -1
  | _ :: _, [] => 1
  | a :: as, b :: bs =>
    if a = b then strcmp_chars as bs else if a.toNat < b.toNat then -1 else 1

/-- The libc routine `strcmp`. -/
def strcmp (a b : String) : Int := strcmp_chars a.data b.data

/-- Insertion of one element into a list ordered by `cmp` (before the first
element it does not exceed). -/
def g_list_insert_sorted {α : Type} (cmp : α → α → Int) (x : α) : List α → List α
  | [] => [x]
  | y :: ys => if cmp x y ≤ 0 then x :: y :: ys else y :: g_list_insert_sorted cmp x ys

/-- The GLib routine `g_queue_sort`: a stable comparison sort of the queue. -/
def g_queue_sort {α : Type} (cmp : α → α → Int) : List α → List α
  | [] => []
  | x :: xs => g_list_insert_sorted cmp x (g_queue_sort cmp xs)

/-- Insertion step of `g_sequence_sort`; the comparator may fail (`none`), and
then so does the insertion. -/
def g_sequence_insert_sorted {α : Type} (cmp : α → α → Option Int) (x : α) :
    List α → Option (List α)
  | [] => some [x]
  | y :: ys =>
    match cmp x y with
    | none => none
    | some c =>
      if c ≤ 0 then some (x :: y :: ys)
      else (g_sequence_insert_sorted cmp x ys).map (fun r => y :: r)

/-- The GLib routine `g_sequence_sort`: a stable comparison sort of the sequence,
failing when a comparison fails. -/
def g_sequence_sort {α : Type} (cmp : α → α → Option Int) : List α → Option (List α)
  | [] => some []
  | x :: xs => (g_sequence_sort cmp xs).bind (g_sequence_insert_sorted cmp x)

/-- The GLib routine `g_rec_mutex_lock` on `list->lock`: one level deeper. -/
def g_rec_mutex_lock (list : RmFileList) : RmFileList := { list with lock := list.lock + 1 }

/-- The GLib routine `g_rec_mutex_unlock` on `list->lock`: one level up. -/
def g_rec_mutex_unlock (list : RmFileList) : RmFileList := { list with lock := list.lock - 1 }

/-- The per-device table built by `rm_file_list_create_devlist_table`:
`g_hash_table_lookup` of `key`, `g_hash_table_insert` of a new queue when the
key is absent, and `g_queue_push_head` of the record. -/
def devlist_push_head (key : Nat) (file : RmFile) :
    List (Nat × List RmFile) → List (Nat × List RmFile)
  | [] => [(key, [file])]
  | (k, dev_list) :: table =>
    if k = key then (k, file :: dev_list) :: table
    else (k, dev_list) :: devlist_push_head key file table

/-! ## The functions of `list.c` -/

section Code

variable (rm_util_basename : String → String)
variable (rm_util_parent_node : String → Nat)
variable (cmp_orig_criteria : RmFile → RmFile → Int)

/-- `rm_file_list_cmp_file_size` (lines 76-83): compares the sizes of the first
members of two groups.  Reading `head->data` of an empty queue is a null
dereference, rendered as `none`. -/
def rm_file_list_cmp_file_size (qa qb : List RmFile) : Option Int :=
  match qa, qb with
  | fa :: _, fb :: _ =>
    some (if fa.fsize > fb.fsize then 1 else if fa.fsize = fb.fsize then 0 else -1)
  | _, _ => none

/-- `rm_file_list_cmp_file` (lines 111-120): inode difference, else device
difference, each truncated to `gint`, else `strcmp` of the basenames. -/
def rm_file_list_cmp_file (fa fb : RmFile) : Int :=
  if fa.node ≠ fb.node then to_gint ((fa.node : Int) - (fb.node : Int))
  else if fa.dev ≠ fb.dev then to_gint ((fa.dev : Int) - (fb.dev : Int))
  else strcmp (rm_util_basename fa.path) (rm_util_basename fb.path)

/-- The test of lines 161-170: a pair with equal device and inode is a path
alias when hardlinked duplicates are not looked for, or when both basename and
parent-directory inode agree. -/
def is_path_alias (settings : RmSettings) (file next_file : RmFile) : Bool :=
  (!settings.find_hardlinked_dupes) ||
    (decide (strcmp (rm_util_basename file.path) (rm_util_basename next_file.path) = 0) &&
      decide (rm_util_parent_node file.path = rm_util_parent_node next_file.path))

/-- The pair is one that the loop resolves by removing a record: equal inode and
device (line 158) and the alias test of lines 161-170. -/
def treated_as_alias (settings : RmSettings) (file next_file : RmFile) : Prop :=
  (file.node = next_file.node ∧ file.dev = next_file.dev) ∧
    is_path_alias rm_util_basename rm_util_parent_node settings file next_file = true

/-- The `while(iter && iter->next)` loop of `rm_file_list_remove_double_paths`
(lines 155-193).  `file` is `iter->data`, the list is what follows `iter`, and
the records before `iter` are already final; the result is the part of the
group from `iter` on after the loop, and the counter.  `rm_file_list_remove`
is only ever called here on a group of two records or more, so it unlinks the
record and its empty-group branch (lines 103-106) is not taken. -/
def remove_double_paths_loop (settings : RmSettings) :
    RmFile → List RmFile → Nat → List RmFile × Nat
  | file, [], removed_cnt => ([file], removed_cnt)
  | file, next_file :: rest, removed_cnt =>
    if file.node = next_file.node ∧ file.dev = next_file.dev then
      if is_path_alias rm_util_basename rm_util_parent_node settings file next_file then
        if cmp_orig_criteria file next_file ≥ 0 then
          remove_double_paths_loop settings next_file rest ((removed_cnt + 1) % 2 ^ 32)
        else
          remove_double_paths_loop settings file rest ((removed_cnt + 1) % 2 ^ 32)
      else
        let linked : RmFile :=
          { next_file with
            hardlinked_original :=
              match file.hardlinked_original with
              | some original => some original
              | none => some file.addr }
        let r := remove_double_paths_loop settings linked rest removed_cnt
        (file :: r.1, r.2)
    else
      let r := remove_double_paths_loop settings next_file rest removed_cnt
      (file :: r.1, r.2)

/-- The record `next_file` after the hardlink branch (lines 184-187). -/
def link_to (file next_file : RmFile) : RmFile :=
  { next_file with
    hardlinked_original :=
      match file.hardlinked_original with
      | some original => some original
      | none => some file.addr }

/-- A record with its `hardlinked_original` reset: the part of a record that
alias resolution never writes. -/
def clear_link (file : RmFile) : RmFile := { file with hardlinked_original := none }

/-- Every `hardlinked_original` in the list points to a record that stands
earlier (in `seen` or in the list itself), has the same device and inode, and
has a null `hardlinked_original` of its own. -/
def links_resolved : List RmFile → List RmFile → Prop
  | _, [] => True
  | seen, r :: rest =>
    (∀ a, r.hardlinked_original = some a →
      ∃ o ∈ seen, o.addr = a ∧ o.dev = r.dev ∧ o.node = r.node ∧
        o.hardlinked_original = none) ∧
    links_resolved (r :: seen) rest

/-- `rm_file_list_remove_double_paths` (lines 150-196): the group after the call
and the returned `removed_cnt`. -/
def rm_file_list_remove_double_paths (settings : RmSettings) (group : List RmFile) :
    List RmFile × Nat :=
  match group with
  | [] => ([], 0)
  | file :: rest =>
    remove_double_paths_loop rm_util_basename rm_util_parent_node cmp_orig_criteria
      settings file rest 0

/-- `rm_file_list_count_pref_paths` (lines 198-207): adds the numbers of members
inside and outside the preferred paths to the two counters (C `int`s, which a
group of fewer than `2^31` members cannot overflow). -/
def rm_file_list_count_pref_paths : List RmFile → Nat × Nat → Nat × Nat
  | [], counts => counts
  | file :: rest, (num_pref, num_nonpref) =>
    if file.in_ppath then rm_file_list_count_pref_paths rest (num_pref + 1, num_nonpref)
    else rm_file_list_count_pref_paths rest (num_pref, num_nonpref + 1)

/-- What lines 254-260 make of one group: sorted and resolved when it has two
members or more, untouched otherwise; with the number of records removed. -/
def resolved_group (settings : RmSettings) (queue : List RmFile) : List RmFile × Nat :=
  if queue.length ≥ 2 then
    rm_file_list_remove_double_paths rm_util_basename rm_util_parent_node
      cmp_orig_criteria settings
      (g_queue_sort (rm_file_list_cmp_file rm_util_basename) queue)
  else (queue, 0)

/-- The `while(!g_sequence_iter_is_end(iter))` loop of `rm_file_list_sort_groups`
(lines 251-281): the groups kept, in order, and the counter. -/
def sort_groups_loop (settings : RmSettings) :
    List (List RmFile) → Nat → List (List RmFile) × Nat
  | [], removed_cnt => ([], removed_cnt)
  | queue :: later, removed_cnt =>
    let counts : Nat × Nat :=
      if queue.length ≥ 2 then rm_file_list_count_pref_paths queue (0, 0) else (0, 0)
    let resolved : List RmFile × Nat :=
      if queue.length ≥ 2 then
        rm_file_list_remove_double_paths rm_util_basename rm_util_parent_node
          cmp_orig_criteria settings
          (g_queue_sort (rm_file_list_cmp_file rm_util_basename) queue)
      else (queue, 0)
    let removed_cnt := (removed_cnt + resolved.2) % 2 ^ 64
    if resolved.1.length < 2 ∨ (settings.must_match_original = true ∧ counts.1 = 0) ∨
        (settings.keep_all_originals = true ∧ counts.2 = 0) then
      sort_groups_loop settings later removed_cnt
    else
      let r := sort_groups_loop settings later removed_cnt
      (resolved.1 :: r.1, r.2)

/-- `rm_file_list_sort_groups` (lines 242-286): the store after the call and the
returned `removed_cnt`; `none` when the size sort dereferences an empty group. -/
def rm_file_list_sort_groups (settings : RmSettings) (list : RmFileList) :
    Option (RmFileList × Nat) :=
  match g_sequence_sort rm_file_list_cmp_file_size list.size_groups with
  | none => none
  | some sorted =>
    let r := sort_groups_loop rm_util_basename rm_util_parent_node cmp_orig_criteria
      settings sorted 0
    some ({ list with size_groups := r.1 }, r.2)

variable (GINT_TO_POINTER : Nat → Nat)
variable (rm_offset_lookup : Nat → Nat → Nat)

/-- The record an `RmFile *` points to.  A pointer held by a caller is rendered
as the position `(group, member)` that its `file_group` and `list_node` fields
designate. -/
def file_at (list : RmFileList) (file : Nat × Nat) : Option RmFile :=
  match list.size_groups[file.1]? with
  | none => none
  | some group => group[file.2]?

/-- `rm_file_list_get_iter` (lines 66-74): the begin iterator of the sequence,
position 0, which is the end iterator when the sequence is empty; never
`NULL`. -/
def rm_file_list_get_iter (list : RmFileList) : Nat × RmFileList :=
  let locked := g_rec_mutex_lock list
  let first := 0
  (first, g_rec_mutex_unlock locked)

/-- `rm_file_list_clear` (lines 86-92): `g_sequence_remove` of the group at
`iter`. -/
def rm_file_list_clear (list : RmFileList) (iter : Nat) : RmFileList :=
  let locked := g_rec_mutex_lock list
  g_rec_mutex_unlock { locked with size_groups := locked.size_groups.eraseIdx iter }

/-- `rm_file_list_remove` (lines 94-109): unlinks the record from its group; when
the group is then empty, the queue is freed and its size is taken out of
`size_table`.  The sequence is not touched, so it keeps the entry of the freed
queue, shown as the empty group.  `none` when `file` points to no record. -/
def rm_file_list_remove (list : RmFileList) (file : Nat × Nat) : Option RmFileList :=
  let locked := g_rec_mutex_lock list
  match locked.size_groups[file.1]? with
  | none => none
  | some group =>
    match group[file.2]? with
    | none => none
    | some record =>
      let file_size := record.fsize
      let group := group.eraseIdx file.2
      let unlinked := { locked with size_groups := locked.size_groups.set file.1 group }
      if group.length = 0 then
        some (g_rec_mutex_unlock
          { unlinked with
            size_table := unlinked.size_table.filter
              (fun key => decide (key ≠ GINT_TO_POINTER file_size)) })
      else some (g_rec_mutex_unlock unlinked)

/-- `rm_file_list_cmp_file_offset` (lines 122-138).  `data` is the pointer that
carries `forward`; the two `return` statements are conditional expressions whose
condition is the constant `-1`, respectively `+1`. -/
def rm_file_list_cmp_file_offset (data : Nat) (fa fb : RmFile) : Int :=
  let forward : Bool := decide (data ≠ 0)
  if fa.offset < fb.offset then
    if (-1 : Int) ≠ 0 then (if forward then 1 else 0) else 1
  else if fa.offset > fb.offset then
    if (1 : Int) ≠ 0 then (if forward then 1 else 0) else -1
  else 0

/-- `rm_file_list_iter_all` (lines 209-240): the record after `previous`, or the
first record when `previous` is `NULL`, together with the store (its lock depth)
at the moment of return.  The outer `none` is a null dereference:
`g_sequence_get` of the end iterator is `NULL`, and so is the `head` of an empty
queue. -/
def rm_file_list_iter_all (list : RmFileList) (previous : Option (Nat × Nat)) :
    Option (Option (Nat × Nat) × RmFileList) :=
  let locked := g_rec_mutex_lock list
  match previous with
  | none =>
    let first := rm_file_list_get_iter locked
    match first.2.size_groups[first.1]? with
    | none => none
    | some [] => none
    | some (_ :: _) => some (some (first.1, 0), g_rec_mutex_unlock first.2)
  | some (file_group, list_node) =>
    match locked.size_groups[file_group]? with
    | none => none
    | some group =>
      if list_node + 1 < group.length then
        some (some (file_group, list_node + 1), locked)
      else
        let next_pos := file_group + 1
        match locked.size_groups[next_pos]? with
        | none => some (none, g_rec_mutex_unlock locked)
        | some [] => none
        | some (_ :: _) => some (some (next_pos, 0), g_rec_mutex_unlock locked)

/-- The records obtained by calling `rm_file_list_iter_all` again and again, each
time on the result of the call before, until it returns `NULL`; at most `fuel`
calls. -/
def iter_all_walk : Nat → RmFileList → Option (Nat × Nat) → Option (List RmFile)
  | 0, _, _ => none
  | fuel + 1, list, previous =>
    match rm_file_list_iter_all list previous with
    | none => none
    | some (none, _) => some []
    | some (some next, after) =>
      match file_at after next with
      | none => none
      | some file => (iter_all_walk fuel after (some next)).map (fun later => file :: later)

/-- `rm_file_list_len` (lines 288-298). -/
def rm_file_list_len (list : RmFileList) : Nat × RmFileList :=
  let locked := g_rec_mutex_lock list
  (locked.size_groups.length % 2 ^ 64, g_rec_mutex_unlock locked)

/-- `rm_file_list_byte_size` (lines 300-313); `group` may be `NULL`. -/
def rm_file_list_byte_size (list : RmFileList) (group : Option (List RmFile)) :
    Nat × RmFileList :=
  let locked := g_rec_mutex_lock list
  match group with
  | some (file :: rest) =>
    ((file.fsize * (rest.length + 1)) % 2 ^ 64, g_rec_mutex_unlock locked)
  | _ => (0, g_rec_mutex_unlock locked)

/-- `rm_file_list_resort_device_offsets` (lines 324-333). -/
def rm_file_list_resort_device_offsets (dev_list : List RmFile)
    (forward force_update : Bool) : List RmFile :=
  let refreshed :=
    if force_update then
      dev_list.map (fun file =>
        { file with offset := rm_offset_lookup file.disk_offsets file.hash_offset })
    else dev_list
  g_queue_sort (rm_file_list_cmp_file_offset (GINT_TO_POINTER (if forward then 1 else 0)))
    refreshed

/-- The `while((file_iter = rm_file_list_iter_all(list, file_iter)))` loop of
`rm_file_list_create_devlist_table` (lines 343-351), run for at most `fuel`
calls of the iterator. -/
def devlist_collect : Nat → RmFileList → Option (Nat × Nat) → List (Nat × List RmFile) →
    Option (List (Nat × List RmFile) × RmFileList)
  | 0, _, _, _ => none
  | fuel + 1, list, file_iter, table =>
    match rm_file_list_iter_all list file_iter with
    | none => none
    | some (none, after) => some (table, after)
    | some (some next, after) =>
      match file_at after next with
      | none => none
      | some file =>
        devlist_collect fuel after (some next)
          (devlist_push_head (GINT_TO_POINTER file.dev) file table)

/-- `rm_file_list_create_devlist_table` (lines 335-363): the table, as the list
of its `(key, dev_list)` entries, and the store at return.  The iterator is
called once per record and once more, which bounds the loop.  The offsets that
the refresh writes are shown on the records of the table. -/
def rm_file_list_create_devlist_table (list : RmFileList) :
    Option (List (Nat × List RmFile) × RmFileList) :=
  let locked := g_rec_mutex_lock list
  match devlist_collect GINT_TO_POINTER (locked.size_groups.flatten.length + 1) locked none [] with
  | none => none
  | some (table, after) =>
    some (table.map (fun entry =>
        (entry.1, rm_file_list_resort_device_offsets GINT_TO_POINTER rm_offset_lookup
          entry.2 true true)),
      g_rec_mutex_unlock after)

end Code

/-! ## A sample environment -/

/-- A basename helper for the examples: the text after the last `/`. -/
def sample_basename (p : String) : String :=
  String.mk ((p.data.reverse.takeWhile (fun c => decide (c ≠ '/'))).reverse)

/-- A parent-inode helper for the examples: directory `/x` has inode 10, every
other directory inode 20. -/
def sample_parent_node (p : String) : Nat :=
  if List.isPrefixOf ['/', 'x', '/'] p.data then 10 else 20

/-- A comparator for the examples that ranks every pair as a tie. -/
def sample_tie (_ _ : RmFile) : Int := 0

/-- Record `/x/f`: inode 5 on device 1, at address `a`. -/
def rec_xf (a : Nat) : RmFile := { addr := a, path := "/x/f", fsize := 100, node := 5, dev := 1 }

/-- Record `/y/f`: a hardlink of `/x/f` in another directory. -/
def rec_yf (a : Nat) : RmFile := { addr := a, path := "/y/f", fsize := 100, node := 5, dev := 1 }

/-- Record `/y/g`: a hardlink of `/x/f` under another name. -/
def rec_yg (a : Nat) : RmFile := { addr := a, path := "/y/g", fsize := 100, node := 5, dev := 1 }

/-- Record `/z/h`: another file of the same size, inode 7 on device 1. -/
def rec_zh (a : Nat) : RmFile := { addr := a, path := "/z/h", fsize := 100, node := 7, dev := 1 }

/-- A record as found under a preferred path. -/
def preferred (file : RmFile) : RmFile := { file with in_ppath := true }

/-- A comparator for the examples that ranks a record inside the preferred paths
before one outside them, and every other pair as a tie. -/
def sample_prefer_ppath (a b : RmFile) : Int :=
  if a.in_ppath = b.in_ppath then 0 else if a.in_ppath = true then -1 else 1

/-- A record with another file size. -/
def with_size (n : Nat) (file : RmFile) : RmFile := { file with fsize := n }

/-- The macro `GINT_TO_POINTER` where `glong` and pointers have 64 bits: the
value modulo `2^64`. -/
def sample_gint_to_pointer (i : Nat) : Nat := i % 2 ^ 64

/-- An offset lookup for the examples: the offset table handle plus the cursor. -/
def sample_offset_lookup (disk_offsets hash_offset : Nat) : Nat := disk_offsets + hash_offset

/-- A record of device 7 whose physical offset is `o`, looked up or stored. -/
def rec_at_offset (a o : Nat) : RmFile :=
  { addr := a, path := "/x/f", fsize := 100, node := a, dev := 7, offset := o,
    disk_offsets := o }

/-- A file `/x/f` of device 1 with inode `i`, at address `a`. -/
def rec_inode (a i : Nat) : RmFile := { addr := a, path := "/x/f", fsize := 100, node := i, dev := 1 }

/-- Hardlink-aware settings with no admission policy. -/
def hardlink_settings : RmSettings := ⟨true, false, false⟩

end RmLint


namespace RmLint

/-! ## Basic facts -/

theorem strcmp_chars_eq_zero (a b : List Char) : strcmp_chars a b = 0 ↔ a = b := by
  induction a generalizing b with
  | nil => cases b <;> simp [strcmp_chars]
  | cons x xs ih =>
    cases b with
    | nil => simp [strcmp_chars]
    | cons y ys =>
      by_cases hxy : x = y
      · simp [strcmp_chars, hxy, ih]
      · by_cases hlt : x.toNat < y.toNat <;> simp [strcmp_chars, hxy, hlt]

theorem strcmp_eq_zero (a b : String) : strcmp a b = 0 ↔ a = b := by
  unfold strcmp
  rw [strcmp_chars_eq_zero]
  constructor
  · intro h
    cases a; cases b; simp_all
  · intro h
    rw [h]

section Facts

variable {rm_util_basename : String → String}
variable {rm_util_parent_node : String → Nat}
variable {cmp_orig_criteria : RmFile → RmFile → Int}

theorem loop_nil (s : RmSettings) (file : RmFile) (c : Nat) :
    remove_double_paths_loop rm_util_basename rm_util_parent_node cmp_orig_criteria s
      file [] c = ([file], c) := rfl

theorem loop_alias_drop_file (s : RmSettings) (file next_file : RmFile) (rest : List RmFile)
    (c : Nat) (hk : file.node = next_file.node ∧ file.dev = next_file.dev)
    (ha : is_path_alias rm_util_basename rm_util_parent_node s file next_file = true)
    (hc : cmp_orig_criteria file next_file ≥ 0) :
    remove_double_paths_loop rm_util_basename rm_util_parent_node cmp_orig_criteria s
      file (next_file :: rest) c =
    remove_double_paths_loop rm_util_basename rm_util_parent_node cmp_orig_criteria s
      next_file rest ((c + 1) % 2 ^ 32) := by
  simp only [remove_double_paths_loop, hk, ha, hc, and_self, if_true]

theorem loop_alias_drop_next (s : RmSettings) (file next_file : RmFile) (rest : List RmFile)
    (c : Nat) (hk : file.node = next_file.node ∧ file.dev = next_file.dev)
    (ha : is_path_alias rm_util_basename rm_util_parent_node s file next_file = true)
    (hc : ¬ cmp_orig_criteria file next_file ≥ 0) :
    remove_double_paths_loop rm_util_basename rm_util_parent_node cmp_orig_criteria s
      file (next_file :: rest) c =
    remove_double_paths_loop rm_util_basename rm_util_parent_node cmp_orig_criteria s
      file rest ((c + 1) % 2 ^ 32) := by
  simp only [remove_double_paths_loop, hk, ha, hc, and_self, if_true, if_false]

theorem loop_hardlink (s : RmSettings) (file next_file : RmFile) (rest : List RmFile)
    (c : Nat) (hk : file.node = next_file.node ∧ file.dev = next_file.dev)
    (ha : is_path_alias rm_util_basename rm_util_parent_node s file next_file = false) :
    remove_double_paths_loop rm_util_basename rm_util_parent_node cmp_orig_criteria s
      file (next_file :: rest) c =
    (file :: (remove_double_paths_loop rm_util_basename rm_util_parent_node
        cmp_orig_criteria s (link_to file next_file) rest c).1,
      (remove_double_paths_loop rm_util_basename rm_util_parent_node
        cmp_orig_criteria s (link_to file next_file) rest c).2) := by
  simp only [remove_double_paths_loop, hk, ha, and_self, if_true, link_to]
  rfl

theorem loop_distinct (s : RmSettings) (file next_file : RmFile) (rest : List RmFile)
    (c : Nat) (hk : ¬ (file.node = next_file.node ∧ file.dev = next_file.dev)) :
    remove_double_paths_loop rm_util_basename rm_util_parent_node cmp_orig_criteria s
      file (next_file :: rest) c =
    (file :: (remove_double_paths_loop rm_util_basename rm_util_parent_node
        cmp_orig_criteria s next_file rest c).1,
      (remove_double_paths_loop rm_util_basename rm_util_parent_node
        cmp_orig_criteria s next_file rest c).2) := by
  simp only [remove_double_paths_loop, hk, if_false]

/-- Induction along the loop: one case per branch of the loop body. -/
theorem loop_induct (s : RmSettings) (motive : RmFile → List RmFile → Nat → Prop)
    (h_nil : ∀ file c, motive file [] c)
    (h_drop_file : ∀ file next_file rest c,
      (file.node = next_file.node ∧ file.dev = next_file.dev) →
      is_path_alias rm_util_basename rm_util_parent_node s file next_file = true →
      cmp_orig_criteria file next_file ≥ 0 →
      motive next_file rest ((c + 1) % 2 ^ 32) → motive file (next_file :: rest) c)
    (h_drop_next : ∀ file next_file rest c,
      (file.node = next_file.node ∧ file.dev = next_file.dev) →
      is_path_alias rm_util_basename rm_util_parent_node s file next_file = true →
      ¬ cmp_orig_criteria file next_file ≥ 0 →
      motive file rest ((c + 1) % 2 ^ 32) → motive file (next_file :: rest) c)
    (h_hardlink : ∀ file next_file rest c,
      (file.node = next_file.node ∧ file.dev = next_file.dev) →
      is_path_alias rm_util_basename rm_util_parent_node s file next_file = false →
      motive (link_to file next_file) rest c → motive file (next_file :: rest) c)
    (h_distinct : ∀ file next_file rest c,
      ¬ (file.node = next_file.node ∧ file.dev = next_file.dev) →
      motive next_file rest c → motive file (next_file :: rest) c) :
    ∀ rest file c, motive file rest c := by
  intro rest
  induction rest with
  | nil => exact h_nil
  | cons next_file rest ih =>
    intro file c
    by_cases hk : file.node = next_file.node ∧ file.dev = next_file.dev
    · cases ha : is_path_alias rm_util_basename rm_util_parent_node s file next_file
      · exact h_hardlink file next_file rest c hk ha (ih _ _)
      · by_cases hc : cmp_orig_criteria file next_file ≥ 0
        · exact h_drop_file file next_file rest c hk ha hc (ih _ _)
        · exact h_drop_next file next_file rest c hk ha hc (ih _ _)
    · exact h_distinct file next_file rest c hk (ih _ _)

/-- The survivors do not depend on the starting value of the counter. -/
theorem loop_fst_counter (s : RmSettings) (rest : List RmFile) (file : RmFile) (c d : Nat) :
    (remove_double_paths_loop rm_util_basename rm_util_parent_node cmp_orig_criteria s
      file rest c).1 =
    (remove_double_paths_loop rm_util_basename rm_util_parent_node cmp_orig_criteria s
      file rest d).1 := by
  revert d
  refine @loop_induct rm_util_basename rm_util_parent_node cmp_orig_criteria s
    (fun file rest c => ∀ d, (remove_double_paths_loop rm_util_basename rm_util_parent_node
      cmp_orig_criteria s file rest c).1 = (remove_double_paths_loop rm_util_basename
      rm_util_parent_node cmp_orig_criteria s file rest d).1) ?_ ?_ ?_ ?_ ?_ rest file c
  · intro file c d; rfl
  · intro file next_file rest c hk ha hc ih d
    rw [loop_alias_drop_file s file next_file rest c hk ha hc,
      loop_alias_drop_file s file next_file rest d hk ha hc]
    exact ih _
  · intro file next_file rest c hk ha hc ih d
    rw [loop_alias_drop_next s file next_file rest c hk ha hc,
      loop_alias_drop_next s file next_file rest d hk ha hc]
    exact ih _
  · intro file next_file rest c hk ha ih d
    rw [loop_hardlink s file next_file rest c hk ha, loop_hardlink s file next_file rest d hk ha]
    simp only [ih d]
  · intro file next_file rest c hk ih d
    rw [loop_distinct s file next_file rest c hk, loop_distinct s file next_file rest d hk]
    simp only [ih d]

/-- The loop keeps at least the current record and never more than it was given. -/
theorem loop_length_bounds (s : RmSettings) (rest : List RmFile) (file : RmFile) (c : Nat) :
    1 ≤ (remove_double_paths_loop rm_util_basename rm_util_parent_node cmp_orig_criteria s
      file rest c).1.length ∧
    (remove_double_paths_loop rm_util_basename rm_util_parent_node cmp_orig_criteria s
      file rest c).1.length ≤ rest.length + 1 := by
  refine @loop_induct rm_util_basename rm_util_parent_node cmp_orig_criteria s
    (fun file rest c => 1 ≤ (remove_double_paths_loop rm_util_basename rm_util_parent_node
      cmp_orig_criteria s file rest c).1.length ∧ (remove_double_paths_loop rm_util_basename
      rm_util_parent_node cmp_orig_criteria s file rest c).1.length ≤ rest.length + 1)
    ?_ ?_ ?_ ?_ ?_ rest file c
  · intro file c; simp [loop_nil]
  · intro file next_file rest c hk ha hc ih
    rw [loop_alias_drop_file s file next_file rest c hk ha hc]
    simp only [List.length_cons]; omega
  · intro file next_file rest c hk ha hc ih
    rw [loop_alias_drop_next s file next_file rest c hk ha hc]
    simp only [List.length_cons]; omega
  · intro file next_file rest c hk ha ih
    rw [loop_hardlink s file next_file rest c hk ha]
    simp only [List.length_cons]; omega
  · intro file next_file rest c hk ih
    rw [loop_distinct s file next_file rest c hk]
    simp only [List.length_cons]; omega

/-- The counter after the loop: its start plus one per record dropped, modulo
`2^32`. -/
theorem loop_counter (s : RmSettings) (rest : List RmFile) (file : RmFile) (c : Nat) :
    (remove_double_paths_loop rm_util_basename rm_util_parent_node cmp_orig_criteria s
      file rest c).2 % 2 ^ 32 =
    (c + (rest.length + 1 - (remove_double_paths_loop rm_util_basename rm_util_parent_node
      cmp_orig_criteria s file rest c).1.length)) % 2 ^ 32 := by
  refine @loop_induct rm_util_basename rm_util_parent_node cmp_orig_criteria s
    (fun file rest c => (remove_double_paths_loop rm_util_basename rm_util_parent_node
      cmp_orig_criteria s file rest c).2 % 2 ^ 32 = (c + (rest.length + 1 -
      (remove_double_paths_loop rm_util_basename rm_util_parent_node cmp_orig_criteria s
      file rest c).1.length)) % 2 ^ 32) ?_ ?_ ?_ ?_ ?_ rest file c
  · intro file c; simp [loop_nil]
  · intro file next_file rest c hk ha hc ih
    have hb := @loop_length_bounds rm_util_basename rm_util_parent_node cmp_orig_criteria
      s rest next_file ((c + 1) % 2 ^ 32)
    rw [loop_alias_drop_file s file next_file rest c hk ha hc, ih]
    simp only [List.length_cons]
    omega
  · intro file next_file rest c hk ha hc ih
    have hb := @loop_length_bounds rm_util_basename rm_util_parent_node cmp_orig_criteria
      s rest file ((c + 1) % 2 ^ 32)
    rw [loop_alias_drop_next s file next_file rest c hk ha hc, ih]
    simp only [List.length_cons]
    omega
  · intro file next_file rest c hk ha ih
    rw [loop_hardlink s file next_file rest c hk ha]
    simp only [List.length_cons, ih]
    congr 1
    omega
  · intro file next_file rest c hk ih
    rw [loop_distinct s file next_file rest c hk]
    simp only [List.length_cons, ih]
    congr 1
    omega

/-- A counter that starts below `2^32` ends below `2^32`. -/
theorem loop_counter_lt (s : RmSettings) (rest : List RmFile) (file : RmFile) (c : Nat) :
    c < 2 ^ 32 →
    (remove_double_paths_loop rm_util_basename rm_util_parent_node cmp_orig_criteria s
      file rest c).2 < 2 ^ 32 := by
  refine @loop_induct rm_util_basename rm_util_parent_node cmp_orig_criteria s
    (fun file rest c => c < 2 ^ 32 → (remove_double_paths_loop rm_util_basename
      rm_util_parent_node cmp_orig_criteria s file rest c).2 < 2 ^ 32) ?_ ?_ ?_ ?_ ?_ rest file c
  · intro file c h; simpa [loop_nil] using h
  · intro file next_file rest c hk ha hc ih _
    rw [loop_alias_drop_file s file next_file rest c hk ha hc]
    exact ih (Nat.mod_lt _ (by norm_num))
  · intro file next_file rest c hk ha hc ih _
    rw [loop_alias_drop_next s file next_file rest c hk ha hc]
    exact ih (Nat.mod_lt _ (by norm_num))
  · intro file next_file rest c hk ha ih h
    rw [loop_hardlink s file next_file rest c hk ha]
    exact ih h
  · intro file next_file rest c hk ih h
    rw [loop_distinct s file next_file rest c hk]
    exact ih h

theorem clear_link_link_to (file next_file : RmFile) :
    clear_link (link_to file next_file) = clear_link next_file := rfl

/-- The survivors are a sublist of the records given, up to the
`hardlinked_original` field. -/
theorem loop_sublist (s : RmSettings) (rest : List RmFile) (file : RmFile) (c : Nat) :
    List.Sublist
      ((remove_double_paths_loop rm_util_basename rm_util_parent_node cmp_orig_criteria s
        file rest c).1.map clear_link)
      ((file :: rest).map clear_link) := by
  refine @loop_induct rm_util_basename rm_util_parent_node cmp_orig_criteria s
    (fun file rest c => List.Sublist ((remove_double_paths_loop rm_util_basename
      rm_util_parent_node cmp_orig_criteria s file rest c).1.map clear_link)
      ((file :: rest).map clear_link)) ?_ ?_ ?_ ?_ ?_ rest file c
  · intro file c; simp [loop_nil]
  · intro file next_file rest c hk ha hc ih
    rw [loop_alias_drop_file s file next_file rest c hk ha hc]
    exact List.Sublist.cons _ ih
  · intro file next_file rest c hk ha hc ih
    rw [loop_alias_drop_next s file next_file rest c hk ha hc]
    simp only [List.map_cons] at ih ⊢
    exact ih.trans (List.Sublist.cons₂ _ (List.sublist_cons_self _ _))
  · intro file next_file rest c hk ha ih
    rw [loop_hardlink s file next_file rest c hk ha]
    simp only [List.map_cons, clear_link_link_to] at ih ⊢
    exact List.Sublist.cons₂ _ ih
  · intro file next_file rest c hk ih
    rw [loop_distinct s file next_file rest c hk]
    simp only [List.map_cons] at ih ⊢
    exact List.Sublist.cons₂ _ ih

/-- Every survivor of the loop is one of the records given, up to the
`hardlinked_original` field. -/
theorem loop_mem (s : RmSettings) (rest : List RmFile) (file : RmFile) (c : Nat)
    (y : RmFile)
    (hy : y ∈ (remove_double_paths_loop rm_util_basename rm_util_parent_node
      cmp_orig_criteria s file rest c).1) :
    ∃ x ∈ file :: rest, clear_link x = clear_link y := by
  have hsub := @loop_sublist rm_util_basename rm_util_parent_node cmp_orig_criteria
    s rest file c
  have hmem : clear_link y ∈ (file :: rest).map clear_link :=
    hsub.subset (List.mem_map_of_mem clear_link hy)
  obtain ⟨x, hx, hxy⟩ := List.mem_map.1 hmem
  exact ⟨x, hx, hxy⟩

theorem clear_link_dev {x y : RmFile} (h : clear_link x = clear_link y) : x.dev = y.dev := by
  have := congrArg RmFile.dev h
  simpa [clear_link] using this

theorem clear_link_node {x y : RmFile} (h : clear_link x = clear_link y) :
    x.node = y.node := by
  have := congrArg RmFile.node h
  simpa [clear_link] using this

theorem clear_link_path {x y : RmFile} (h : clear_link x = clear_link y) :
    x.path = y.path := by
  have := congrArg RmFile.path h
  simpa [clear_link] using this

theorem clear_link_addr {x y : RmFile} (h : clear_link x = clear_link y) :
    x.addr = y.addr := by
  have := congrArg RmFile.addr h
  simpa [clear_link] using this

/-- Without hardlink-aware resolution, a group whose records of one file stand
together ends with pairwise different (device, inode). -/
theorem loop_distinct_files (s : RmSettings) (hflag : s.find_hardlinked_dupes = false)
    (rest : List RmFile) (file : RmFile) (c : Nat) :
    (∀ x z y : RmFile, List.Sublist [x, z, y] (file :: rest) →
      x.dev = y.dev ∧ x.node = y.node → z.dev = x.dev ∧ z.node = x.node) →
    List.Pairwise (fun a b => ¬ (a.dev = b.dev ∧ a.node = b.node))
      (remove_double_paths_loop rm_util_basename rm_util_parent_node cmp_orig_criteria s
        file rest c).1 := by
  refine @loop_induct rm_util_basename rm_util_parent_node cmp_orig_criteria s
    (fun file rest c => (∀ x z y : RmFile, List.Sublist [x, z, y] (file :: rest) →
      x.dev = y.dev ∧ x.node = y.node → z.dev = x.dev ∧ z.node = x.node) →
      List.Pairwise (fun a b => ¬ (a.dev = b.dev ∧ a.node = b.node))
        (remove_double_paths_loop rm_util_basename rm_util_parent_node cmp_orig_criteria s
          file rest c).1) ?_ ?_ ?_ ?_ ?_ rest file c
  · intro file c _; simp [loop_nil]
  · intro file next_file rest c hk ha hc ih hcontig
    rw [loop_alias_drop_file s file next_file rest c hk ha hc]
    exact ih (fun x z y h => hcontig x z y (List.Sublist.cons _ h))
  · intro file next_file rest c hk ha hc ih hcontig
    rw [loop_alias_drop_next s file next_file rest c hk ha hc]
    exact ih (fun x z y h => hcontig x z y
      (h.trans (List.Sublist.cons₂ _ (List.sublist_cons_self _ _))))
  · intro file next_file rest c hk ha ih hcontig
    simp [is_path_alias, hflag] at ha
  · intro file next_file rest c hk ih hcontig
    rw [loop_distinct s file next_file rest c hk]
    refine List.Pairwise.cons ?_ (ih (fun x z y h => hcontig x z y (List.Sublist.cons _ h)))
    intro y hy hsame
    obtain ⟨x, hx, hxy⟩ := loop_mem s rest next_file c y hy
    have hxd : x.dev = y.dev := clear_link_dev hxy
    have hxn : x.node = y.node := clear_link_node hxy
    rcases List.mem_cons.1 hx with rfl | hx
    · exact hk ⟨hsame.2.trans hxn.symm, hsame.1.trans hxd.symm⟩
    · have hsub : List.Sublist [file, next_file, x] (file :: next_file :: rest) :=
        List.Sublist.cons₂ _ (List.Sublist.cons₂ _ (List.singleton_sublist.2 hx))
      have := hcontig file next_file x hsub
        ⟨hsame.1.trans hxd.symm, hsame.2.trans hxn.symm⟩
      exact hk ⟨this.2.symm, this.1.symm⟩

/-- The loop leaves every reference resolved, when it starts from records without
a reference behind a current record whose reference is resolved. -/
theorem loop_links_resolved (s : RmSettings) (rest : List RmFile) (file : RmFile) (c : Nat) :
    ∀ seen : List RmFile, (∀ r ∈ rest, r.hardlinked_original = none) →
      (∀ a, file.hardlinked_original = some a →
        ∃ o ∈ seen, o.addr = a ∧ o.dev = file.dev ∧ o.node = file.node ∧
          o.hardlinked_original = none) →
      links_resolved seen (remove_double_paths_loop rm_util_basename rm_util_parent_node
        cmp_orig_criteria s file rest c).1 := by
  refine @loop_induct rm_util_basename rm_util_parent_node cmp_orig_criteria s
    (fun file rest c => ∀ seen : List RmFile, (∀ r ∈ rest, r.hardlinked_original = none) →
      (∀ a, file.hardlinked_original = some a →
        ∃ o ∈ seen, o.addr = a ∧ o.dev = file.dev ∧ o.node = file.node ∧
          o.hardlinked_original = none) →
      links_resolved seen (remove_double_paths_loop rm_util_basename rm_util_parent_node
        cmp_orig_criteria s file rest c).1) ?_ ?_ ?_ ?_ ?_ rest file c
  · intro file c seen _ hfile
    simp only [loop_nil, links_resolved, and_true]
    exact hfile
  · intro file next_file rest c hk ha hc ih seen hrest hfile
    rw [loop_alias_drop_file s file next_file rest c hk ha hc]
    refine ih seen (fun r hr => hrest r (List.mem_cons_of_mem _ hr)) ?_
    intro a hnext
    rw [hrest next_file (List.mem_cons_self _ _)] at hnext
    exact absurd hnext (by simp)
  · intro file next_file rest c hk ha hc ih seen hrest hfile
    rw [loop_alias_drop_next s file next_file rest c hk ha hc]
    exact ih seen (fun r hr => hrest r (List.mem_cons_of_mem _ hr)) hfile
  · intro file next_file rest c hk ha ih seen hrest hfile
    rw [loop_hardlink s file next_file rest c hk ha]
    refine ⟨hfile, ih (file :: seen) (fun r hr => hrest r (List.mem_cons_of_mem _ hr)) ?_⟩
    intro a hlink
    cases hf : file.hardlinked_original with
    | none =>
      simp only [link_to, hf, Option.some.injEq] at hlink
      exact ⟨file, List.mem_cons_self _ _, hlink, hk.2, hk.1, hf⟩
    | some b =>
      simp only [link_to, hf, Option.some.injEq] at hlink
      obtain ⟨o, ho, hoa, hod, hon, hoh⟩ := hfile b hf
      exact ⟨o, List.mem_cons_of_mem _ ho, hoa.trans hlink, hod.trans hk.2,
        hon.trans hk.1, hoh⟩
  · intro file next_file rest c hk ih seen hrest hfile
    rw [loop_distinct s file next_file rest c hk]
    refine ⟨hfile, ih (file :: seen) (fun r hr => hrest r (List.mem_cons_of_mem _ hr)) ?_⟩
    intro a hnext
    rw [hrest next_file (List.mem_cons_self _ _)] at hnext
    exact absurd hnext (by simp)

/-- Reading `links_resolved` at a position of the list. -/
theorem links_resolved_at (l : List RmFile) :
    ∀ seen : List RmFile, links_resolved seen l →
      ∀ (pre : List RmFile) (r : RmFile) (post : List RmFile) (a : Nat),
        l = pre ++ r :: post → r.hardlinked_original = some a →
        ∃ o, (o ∈ seen ∨ o ∈ pre) ∧ o.addr = a ∧ o.dev = r.dev ∧ o.node = r.node ∧
          o.hardlinked_original = none := by
  induction l with
  | nil =>
    intro seen _ pre r post a h
    exact absurd h (by simp)
  | cons x xs ih =>
    intro seen hres pre r post a h hr
    cases pre with
    | nil =>
      simp only [List.nil_append, List.cons.injEq] at h
      obtain ⟨rfl, -⟩ := h
      obtain ⟨o, ho, rest⟩ := hres.1 a hr
      exact ⟨o, Or.inl ho, rest⟩
    | cons p pre =>
      simp only [List.cons_append, List.cons.injEq] at h
      obtain ⟨rfl, hxs⟩ := h
      obtain ⟨o, ho, rest⟩ := ih (x :: seen) hres.2 pre r post a hxs hr
      refine ⟨o, ?_, rest⟩
      rcases ho with ho | ho
      · rcases List.mem_cons.1 ho with rfl | ho
        · exact Or.inr (List.mem_cons_self _ _)
        · exact Or.inl ho
      · exact Or.inr (List.mem_cons_of_mem _ ho)

theorem addr_clear_link : RmFile.addr ∘ clear_link = RmFile.addr := rfl

/-- Being treated as an alias is read off inode, device and path only. -/
theorem treated_as_alias_iff (s : RmSettings) (a b : RmFile) :
    treated_as_alias rm_util_basename rm_util_parent_node s a b ↔
      (a.node = b.node ∧ a.dev = b.dev) ∧
        (s.find_hardlinked_dupes = false ∨
          (rm_util_basename a.path = rm_util_basename b.path ∧
            rm_util_parent_node a.path = rm_util_parent_node b.path)) := by
  simp only [treated_as_alias, is_path_alias, strcmp_eq_zero, Bool.or_eq_true,
    Bool.and_eq_true, decide_eq_true_eq, Bool.not_eq_true']

theorem treated_as_alias_trans (s : RmSettings) (a b c : RmFile)
    (hab : treated_as_alias rm_util_basename rm_util_parent_node s a b)
    (hbc : treated_as_alias rm_util_basename rm_util_parent_node s b c) :
    treated_as_alias rm_util_basename rm_util_parent_node s a c := by
  rw [treated_as_alias_iff] at hab hbc ⊢
  refine ⟨⟨hab.1.1.trans hbc.1.1, hab.1.2.trans hbc.1.2⟩, ?_⟩
  rcases hab.2 with h | h
  · exact Or.inl h
  · rcases hbc.2 with h2 | h2
    · exact Or.inl h2
    · exact Or.inr ⟨h.1.trans h2.1, h.2.trans h2.2⟩

theorem treated_as_alias_symm (s : RmSettings) (a b : RmFile)
    (hab : treated_as_alias rm_util_basename rm_util_parent_node s a b) :
    treated_as_alias rm_util_basename rm_util_parent_node s b a := by
  rw [treated_as_alias_iff] at hab ⊢
  refine ⟨⟨hab.1.1.symm, hab.1.2.symm⟩, ?_⟩
  rcases hab.2 with h | h
  · exact Or.inl h
  · exact Or.inr ⟨h.1.symm, h.2.symm⟩

theorem treated_as_alias_congr (s : RmSettings) (a a2 b b2 : RmFile)
    (ha : clear_link a = clear_link a2) (hb : clear_link b = clear_link b2) :
    treated_as_alias rm_util_basename rm_util_parent_node s a b ↔
      treated_as_alias rm_util_basename rm_util_parent_node s a2 b2 := by
  rw [treated_as_alias_iff, treated_as_alias_iff, clear_link_dev ha, clear_link_dev hb,
    clear_link_node ha, clear_link_node hb, clear_link_path ha, clear_link_path hb]

/-- A record that is no alias of the current record is no alias of the first
survivor either. -/
theorem loop_head_not_alias (s : RmSettings) (x : RmFile) (rest : List RmFile)
    (file : RmFile) (c : Nat) :
    ¬ treated_as_alias rm_util_basename rm_util_parent_node s x file →
    ∀ h ∈ (remove_double_paths_loop rm_util_basename rm_util_parent_node cmp_orig_criteria
      s file rest c).1.head?, ¬ treated_as_alias rm_util_basename rm_util_parent_node s x h := by
  refine @loop_induct rm_util_basename rm_util_parent_node cmp_orig_criteria s
    (fun file rest c => ¬ treated_as_alias rm_util_basename rm_util_parent_node s x file →
      ∀ h ∈ (remove_double_paths_loop rm_util_basename rm_util_parent_node cmp_orig_criteria
        s file rest c).1.head?,
        ¬ treated_as_alias rm_util_basename rm_util_parent_node s x h) ?_ ?_ ?_ ?_ ?_ rest file c
  · intro file c hx h hh
    simp only [loop_nil, List.head?_cons, Option.mem_def, Option.some.injEq] at hh
    exact hh ▸ hx
  · intro file next_file rest c hk ha hc ih hx
    rw [loop_alias_drop_file s file next_file rest c hk ha hc]
    refine ih (fun hxn => hx ?_)
    exact treated_as_alias_trans s x next_file file hxn
      (treated_as_alias_symm s file next_file ⟨hk, ha⟩)
  · intro file next_file rest c hk ha hc ih hx
    rw [loop_alias_drop_next s file next_file rest c hk ha hc]
    exact ih hx
  · intro file next_file rest c hk ha ih hx h hh
    rw [loop_hardlink s file next_file rest c hk ha] at hh
    simp only [List.head?_cons, Option.mem_def, Option.some.injEq] at hh
    exact hh ▸ hx
  · intro file next_file rest c hk ih hx h hh
    rw [loop_distinct s file next_file rest c hk] at hh
    simp only [List.head?_cons, Option.mem_def, Option.some.injEq] at hh
    exact hh ▸ hx

/-- After the loop no two neighbours are a pair the loop would resolve. -/
theorem loop_no_adjacent_alias (s : RmSettings) (rest : List RmFile) (file : RmFile)
    (c : Nat) :
    List.Chain' (fun a b => ¬ treated_as_alias rm_util_basename rm_util_parent_node s a b)
      (remove_double_paths_loop rm_util_basename rm_util_parent_node cmp_orig_criteria s
        file rest c).1 := by
  refine @loop_induct rm_util_basename rm_util_parent_node cmp_orig_criteria s
    (fun file rest c => List.Chain'
      (fun a b => ¬ treated_as_alias rm_util_basename rm_util_parent_node s a b)
      (remove_double_paths_loop rm_util_basename rm_util_parent_node cmp_orig_criteria s
        file rest c).1) ?_ ?_ ?_ ?_ ?_ rest file c
  · intro file c; simp [loop_nil]
  · intro file next_file rest c hk ha hc ih
    rw [loop_alias_drop_file s file next_file rest c hk ha hc]; exact ih
  · intro file next_file rest c hk ha hc ih
    rw [loop_alias_drop_next s file next_file rest c hk ha hc]; exact ih
  · intro file next_file rest c hk ha ih
    rw [loop_hardlink s file next_file rest c hk ha]
    refine List.chain'_cons'.2 ⟨?_, ih⟩
    refine loop_head_not_alias s file rest (link_to file next_file) c ?_
    rw [← treated_as_alias_congr s file file next_file (link_to file next_file) rfl
      (clear_link_link_to file next_file).symm]
    intro h
    rw [h.2] at ha
    exact absurd ha (by simp)
  · intro file next_file rest c hk ih
    rw [loop_distinct s file next_file rest c hk]
    refine List.chain'_cons'.2 ⟨?_, ih⟩
    exact loop_head_not_alias s file rest next_file c (fun h => hk h.1)

/-- On a group without such neighbours the loop removes nothing. -/
theorem loop_removes_nothing (s : RmSettings) (rest : List RmFile) (file : RmFile)
    (c : Nat) :
    List.Chain' (fun a b => ¬ treated_as_alias rm_util_basename rm_util_parent_node s a b)
      (file :: rest) →
    (remove_double_paths_loop rm_util_basename rm_util_parent_node cmp_orig_criteria s
      file rest c).2 = c ∧
    (remove_double_paths_loop rm_util_basename rm_util_parent_node cmp_orig_criteria s
      file rest c).1.map clear_link = (file :: rest).map clear_link := by
  refine @loop_induct rm_util_basename rm_util_parent_node cmp_orig_criteria s
    (fun file rest c => List.Chain'
      (fun a b => ¬ treated_as_alias rm_util_basename rm_util_parent_node s a b)
      (file :: rest) →
      (remove_double_paths_loop rm_util_basename rm_util_parent_node cmp_orig_criteria s
        file rest c).2 = c ∧
      (remove_double_paths_loop rm_util_basename rm_util_parent_node cmp_orig_criteria s
        file rest c).1.map clear_link = (file :: rest).map clear_link) ?_ ?_ ?_ ?_ ?_
    rest file c
  · intro file c _; simp [loop_nil]
  · intro file next_file rest c hk ha hc _ hch
    exact absurd ⟨hk, ha⟩ (List.chain'_cons.1 hch).1
  · intro file next_file rest c hk ha hc _ hch
    exact absurd ⟨hk, ha⟩ (List.chain'_cons.1 hch).1
  · intro file next_file rest c hk ha ih hch
    rw [loop_hardlink s file next_file rest c hk ha]
    have hch2 := (List.chain'_cons.1 hch).2
    have hch3 : List.Chain'
        (fun a b => ¬ treated_as_alias rm_util_basename rm_util_parent_node s a b)
        (link_to file next_file :: rest) := by
      rw [List.chain'_cons'] at hch2 ⊢
      refine ⟨fun y hy => ?_, hch2.2⟩
      rw [treated_as_alias_congr s (link_to file next_file) next_file y y
        (clear_link_link_to file next_file) rfl]
      exact hch2.1 y hy
    obtain ⟨h1, h2⟩ := ih hch3
    refine ⟨h1, ?_⟩
    simp only [List.map_cons, clear_link_link_to] at h2 ⊢
    rw [h2]
  · intro file next_file rest c hk ih hch
    rw [loop_distinct s file next_file rest c hk]
    obtain ⟨h1, h2⟩ := ih (List.chain'_cons.1 hch).2
    refine ⟨h1, ?_⟩
    simp only [List.map_cons] at h2 ⊢
    rw [h2]

theorem clear_link_fsize {x y : RmFile} (h : clear_link x = clear_link y) :
    x.fsize = y.fsize := by
  have := congrArg RmFile.fsize h
  simpa [clear_link] using this

/-- Every (device, inode) the loop is given is still carried by a survivor. -/
theorem loop_keeps_files (s : RmSettings) (rest : List RmFile) (file : RmFile) (c : Nat) :
    ∀ x ∈ file :: rest, ∃ y ∈ (remove_double_paths_loop rm_util_basename
      rm_util_parent_node cmp_orig_criteria s file rest c).1,
      y.dev = x.dev ∧ y.node = x.node := by
  refine @loop_induct rm_util_basename rm_util_parent_node cmp_orig_criteria s
    (fun file rest c => ∀ x ∈ file :: rest, ∃ y ∈ (remove_double_paths_loop rm_util_basename
      rm_util_parent_node cmp_orig_criteria s file rest c).1,
      y.dev = x.dev ∧ y.node = x.node) ?_ ?_ ?_ ?_ ?_ rest file c
  · intro file c x hx
    rw [List.mem_singleton] at hx
    exact ⟨file, by simp [loop_nil], by rw [hx], by rw [hx]⟩
  · intro file next_file rest c hk ha hc ih x hx
    rw [loop_alias_drop_file s file next_file rest c hk ha hc]
    rcases List.mem_cons.1 hx with rfl | hx
    · obtain ⟨y, hy, hd, hn⟩ := ih next_file (List.mem_cons_self _ _)
      exact ⟨y, hy, hd.trans hk.2.symm, hn.trans hk.1.symm⟩
    · exact ih x hx
  · intro file next_file rest c hk ha hc ih x hx
    rw [loop_alias_drop_next s file next_file rest c hk ha hc]
    rcases List.mem_cons.1 hx with rfl | hx
    · exact ih x (List.mem_cons_self _ _)
    · rcases List.mem_cons.1 hx with rfl | hx
      · obtain ⟨y, hy, hd, hn⟩ := ih file (List.mem_cons_self _ _)
        exact ⟨y, hy, hd.trans hk.2, hn.trans hk.1⟩
      · exact ih x (List.mem_cons_of_mem _ hx)
  · intro file next_file rest c hk ha ih x hx
    rw [loop_hardlink s file next_file rest c hk ha]
    rcases List.mem_cons.1 hx with rfl | hx
    · exact ⟨x, List.mem_cons_self _ _, rfl, rfl⟩
    · rcases List.mem_cons.1 hx with rfl | hx
      · obtain ⟨y, hy, hd, hn⟩ := ih (link_to file x) (List.mem_cons_self _ _)
        exact ⟨y, List.mem_cons_of_mem _ hy, hd, hn⟩
      · obtain ⟨y, hy, hd, hn⟩ := ih x (List.mem_cons_of_mem _ hx)
        exact ⟨y, List.mem_cons_of_mem _ hy, hd, hn⟩
  · intro file next_file rest c hk ih x hx
    rw [loop_distinct s file next_file rest c hk]
    rcases List.mem_cons.1 hx with rfl | hx
    · exact ⟨x, List.mem_cons_self _ _, rfl, rfl⟩
    · obtain ⟨y, hy, hd, hn⟩ := ih x hx
      exact ⟨y, List.mem_cons_of_mem _ hy, hd, hn⟩

end Facts

end RmLint

namespace RmLint

/-! ## Alias resolution: `rm_file_list_remove_double_paths` -/

section Resolution

variable (rm_util_basename : String → String)
variable (rm_util_parent_node : String → Nat)
variable (cmp_orig_criteria : RmFile → RmFile → Int)

/-- C3, as written, fails on a tie: the same path reached twice (`/x/f` at
addresses 1 and 2) with a comparator that returns 0 is a path alias, and the
call keeps the second record and removes the first. -/
theorem tie_removes_first_record :
    sample_tie (rec_xf 1) (rec_xf 2) = 0 ∧
    is_path_alias sample_basename sample_parent_node hardlink_settings
      (rec_xf 1) (rec_xf 2) = true ∧
    rm_file_list_remove_double_paths sample_basename sample_parent_node sample_tie
      hardlink_settings [rec_xf 1, rec_xf 2] = ([rec_xf 2], 1) ∧
    rm_file_list_remove_double_paths sample_basename sample_parent_node sample_tie
      hardlink_settings [rec_xf 1, rec_xf 2] ≠ ([rec_xf 1], 1) := by
  decide

/-- C3, amended: for a pair `(file, next_file)` with equal device and inode that
is treated as a path alias, a negative `cmp_orig_criteria file next_file` removes
`next_file` and keeps `file` as the current record, while a result that is zero
or positive removes `file` and moves on to `next_file`; in both cases the call
continues as on the group without the removed record and counts one removal. -/
theorem alias_pair_removal (settings : RmSettings) (file next_file : RmFile)
    (rest : List RmFile)
    (hkey : file.node = next_file.node ∧ file.dev = next_file.dev)
    (halias : is_path_alias rm_util_basename rm_util_parent_node settings file next_file
      = true) :
    (cmp_orig_criteria file next_file < 0 →
      rm_file_list_remove_double_paths rm_util_basename rm_util_parent_node
        cmp_orig_criteria settings (file :: next_file :: rest) =
      ((rm_file_list_remove_double_paths rm_util_basename rm_util_parent_node
          cmp_orig_criteria settings (file :: rest)).1,
        ((rm_file_list_remove_double_paths rm_util_basename rm_util_parent_node
          cmp_orig_criteria settings (file :: rest)).2 + 1) % 2 ^ 32)) ∧
    (cmp_orig_criteria file next_file ≥ 0 →
      rm_file_list_remove_double_paths rm_util_basename rm_util_parent_node
        cmp_orig_criteria settings (file :: next_file :: rest) =
      ((rm_file_list_remove_double_paths rm_util_basename rm_util_parent_node
          cmp_orig_criteria settings (next_file :: rest)).1,
        ((rm_file_list_remove_double_paths rm_util_basename rm_util_parent_node
          cmp_orig_criteria settings (next_file :: rest)).2 + 1) % 2 ^ 32)) := by
  have key : ∀ f : RmFile,
      remove_double_paths_loop rm_util_basename rm_util_parent_node cmp_orig_criteria
        settings f rest ((0 + 1) % 2 ^ 32) =
      ((remove_double_paths_loop rm_util_basename rm_util_parent_node cmp_orig_criteria
          settings f rest 0).1,
        ((remove_double_paths_loop rm_util_basename rm_util_parent_node cmp_orig_criteria
          settings f rest 0).2 + 1) % 2 ^ 32) := by
    intro f
    have h1 := @loop_fst_counter rm_util_basename rm_util_parent_node cmp_orig_criteria
      settings rest f ((0 + 1) % 2 ^ 32) 0
    have h2 := @loop_counter rm_util_basename rm_util_parent_node cmp_orig_criteria
      settings rest f ((0 + 1) % 2 ^ 32)
    have h3 := @loop_counter rm_util_basename rm_util_parent_node cmp_orig_criteria
      settings rest f 0
    have h4 := @loop_counter_lt rm_util_basename rm_util_parent_node cmp_orig_criteria
      settings rest f ((0 + 1) % 2 ^ 32) (Nat.mod_lt _ (by norm_num))
    rw [h1] at h2
    refine Prod.ext h1 ?_
    simp only
    omega
  constructor
  · intro hc
    simp only [rm_file_list_remove_double_paths]
    rw [loop_alias_drop_next settings file next_file rest 0 hkey halias (by omega)]
    exact key file
  · intro hc
    simp only [rm_file_list_remove_double_paths]
    rw [loop_alias_drop_file settings file next_file rest 0 hkey halias hc]
    exact key next_file

/-- The amended C3 at the same path reached twice with a tie: the second record
is the one that stays. -/
theorem alias_pair_removal_witness :
    ((rec_xf 1).node = (rec_xf 2).node ∧ (rec_xf 1).dev = (rec_xf 2).dev) ∧
    is_path_alias sample_basename sample_parent_node hardlink_settings
      (rec_xf 1) (rec_xf 2) = true ∧
    (sample_tie (rec_xf 1) (rec_xf 2) ≥ 0 →
      rm_file_list_remove_double_paths sample_basename sample_parent_node sample_tie
        hardlink_settings [rec_xf 1, rec_xf 2] =
      ((rm_file_list_remove_double_paths sample_basename sample_parent_node sample_tie
          hardlink_settings [rec_xf 2]).1,
        ((rm_file_list_remove_double_paths sample_basename sample_parent_node sample_tie
          hardlink_settings [rec_xf 2]).2 + 1) % 2 ^ 32)) :=
  ⟨by decide, by decide,
    (alias_pair_removal sample_basename sample_parent_node sample_tie hardlink_settings
      (rec_xf 1) (rec_xf 2) [] (by decide) (by decide)).2⟩

/-- C4: a two-record group `[A, B]` with equal device and inode, hardlink-aware
settings, `A.hardlinked_original` null and different basenames or different
parent-directory inodes: the call returns 0, keeps both records in order, sets
`B.hardlinked_original` to `A` and leaves `A` untouched. -/
theorem genuine_hardlink_pair (settings : RmSettings) (A B : RmFile)
    (hdev : A.dev = B.dev) (hnode : A.node = B.node)
    (hflag : settings.find_hardlinked_dupes = true)
    (hA : A.hardlinked_original = none)
    (hdiff : rm_util_basename A.path ≠ rm_util_basename B.path ∨
      rm_util_parent_node A.path ≠ rm_util_parent_node B.path) :
    rm_file_list_remove_double_paths rm_util_basename rm_util_parent_node
      cmp_orig_criteria settings [A, B] =
    ([A, { B with hardlinked_original := some A.addr }], 0) ∧
    A.hardlinked_original = none := by
  have ha : is_path_alias rm_util_basename rm_util_parent_node settings A B = false := by
    simp only [is_path_alias, hflag, strcmp_eq_zero]
    rcases hdiff with h | h <;> simp [h]
  refine ⟨?_, hA⟩
  simp only [rm_file_list_remove_double_paths]
  rw [loop_hardlink settings A B [] 0 ⟨hnode, hdev⟩ ha, loop_nil]
  simp [link_to, hA]

/-- C4 at `/x/f` and its hardlink `/y/g`. -/
theorem genuine_hardlink_pair_witness :
    rm_file_list_remove_double_paths sample_basename sample_parent_node sample_tie
      hardlink_settings [rec_xf 1, rec_yg 2] =
    ([rec_xf 1, { rec_yg 2 with hardlinked_original := some 1 }], 0) ∧
    (rec_xf 1).hardlinked_original = none :=
  genuine_hardlink_pair sample_basename sample_parent_node sample_tie hardlink_settings
    (rec_xf 1) (rec_yg 2) (by decide) (by decide) (by decide) (by decide)
    (Or.inl (by decide))

/-- C7: the value returned by `rm_file_list_remove_double_paths` is the number of
records removed (length before minus length after; a `GQueue` length is a
`guint`), and the survivors are the input records in their order with some
left out, nothing added and nothing repeated. -/
theorem removed_count_is_length_difference (settings : RmSettings) (group : List RmFile)
    (hlen : group.length < 2 ^ 32) :
    (rm_file_list_remove_double_paths rm_util_basename rm_util_parent_node
      cmp_orig_criteria settings group).2 =
      group.length - (rm_file_list_remove_double_paths rm_util_basename
        rm_util_parent_node cmp_orig_criteria settings group).1.length ∧
    (rm_file_list_remove_double_paths rm_util_basename rm_util_parent_node
      cmp_orig_criteria settings group).1.length ≤ group.length ∧
    List.Sublist
      ((rm_file_list_remove_double_paths rm_util_basename rm_util_parent_node
        cmp_orig_criteria settings group).1.map clear_link)
      (group.map clear_link) := by
  cases group with
  | nil => simp [rm_file_list_remove_double_paths]
  | cons file rest =>
    simp only [rm_file_list_remove_double_paths]
    have h1 := @loop_length_bounds rm_util_basename rm_util_parent_node cmp_orig_criteria
      settings rest file 0
    have h2 := @loop_counter rm_util_basename rm_util_parent_node cmp_orig_criteria
      settings rest file 0
    have h3 := @loop_counter_lt rm_util_basename rm_util_parent_node cmp_orig_criteria
      settings rest file 0 (by norm_num)
    have h4 := @loop_sublist rm_util_basename rm_util_parent_node cmp_orig_criteria
      settings rest file 0
    simp only [List.length_cons] at hlen ⊢
    refine ⟨?_, h1.2, h4⟩
    omega

/-- C7 at the three records `/x/f`, `/x/f`, `/y/g` of one inode: one removed. -/
theorem removed_count_is_length_difference_witness :
    (rm_file_list_remove_double_paths sample_basename sample_parent_node sample_tie
      hardlink_settings [rec_xf 1, rec_xf 2, rec_yg 3]).2 =
      [rec_xf 1, rec_xf 2, rec_yg 3].length -
        (rm_file_list_remove_double_paths sample_basename sample_parent_node sample_tie
          hardlink_settings [rec_xf 1, rec_xf 2, rec_yg 3]).1.length ∧
    (rm_file_list_remove_double_paths sample_basename sample_parent_node sample_tie
      hardlink_settings [rec_xf 1, rec_xf 2, rec_yg 3]).1.length ≤
      [rec_xf 1, rec_xf 2, rec_yg 3].length ∧
    List.Sublist
      ((rm_file_list_remove_double_paths sample_basename sample_parent_node sample_tie
        hardlink_settings [rec_xf 1, rec_xf 2, rec_yg 3]).1.map clear_link)
      ([rec_xf 1, rec_xf 2, rec_yg 3].map clear_link) :=
  removed_count_is_length_difference sample_basename sample_parent_node sample_tie
    hardlink_settings [rec_xf 1, rec_xf 2, rec_yg 3] (by norm_num)

/-- C2: when `find_hardlinked_dupes` is false and the records with equal
(device, inode) stand together in the group (whenever `x`, `z`, `y` occur in
this order and `x`, `y` are one file, so is `z`), no two records left by
`rm_file_list_remove_double_paths` have the same (device, inode). -/
theorem no_shared_inode_without_hardlinks (settings : RmSettings) (group : List RmFile)
    (hflag : settings.find_hardlinked_dupes = false)
    (hcontig : ∀ x z y : RmFile, List.Sublist [x, z, y] group →
      x.dev = y.dev ∧ x.node = y.node → z.dev = x.dev ∧ z.node = x.node) :
    List.Pairwise (fun a b => ¬ (a.dev = b.dev ∧ a.node = b.node))
      (rm_file_list_remove_double_paths rm_util_basename rm_util_parent_node
        cmp_orig_criteria settings group).1 := by
  cases group with
  | nil => simp [rm_file_list_remove_double_paths]
  | cons file rest =>
    simp only [rm_file_list_remove_double_paths]
    exact loop_distinct_files settings hflag rest file 0 hcontig

/-- C2 at the group `/x/f`, `/y/f` (one inode) and `/z/h`: two records are left
and they are different files. -/
theorem no_shared_inode_without_hardlinks_witness :
    rm_file_list_remove_double_paths sample_basename sample_parent_node sample_tie
      ⟨false, false, false⟩ [rec_xf 1, rec_yf 2, rec_zh 3] = ([rec_yf 2, rec_zh 3], 1) ∧
    List.Pairwise (fun a b => ¬ (a.dev = b.dev ∧ a.node = b.node))
      (rm_file_list_remove_double_paths sample_basename sample_parent_node sample_tie
        ⟨false, false, false⟩ [rec_xf 1, rec_yf 2, rec_zh 3]).1 :=
  ⟨by decide,
    no_shared_inode_without_hardlinks sample_basename sample_parent_node sample_tie
      ⟨false, false, false⟩ [rec_xf 1, rec_yf 2, rec_zh 3] rfl (by
        intro x z y h hxy
        have hlen : [x, z, y] = [rec_xf 1, rec_yf 2, rec_zh 3] := h.eq_of_length rfl
        simp only [List.cons.injEq, and_true] at hlen
        obtain ⟨rfl, rfl, rfl⟩ := hlen
        exact absurd hxy (by decide))⟩

/-- C6: in a group whose records all start with a null `hardlinked_original`,
after `rm_file_list_remove_double_paths` every record with a reference points
to the address of a record that is still in the group, stands before it, has
the same device and inode, and has a null reference of its own: following a
reference ends after one step.  Records keep distinct addresses, so the
address names one record. -/
theorem hardlink_reference_integrity (settings : RmSettings) (group : List RmFile)
    (hnull : ∀ f ∈ group, f.hardlinked_original = none) :
    (∀ (pre : List RmFile) (r : RmFile) (post : List RmFile) (a : Nat),
      (rm_file_list_remove_double_paths rm_util_basename rm_util_parent_node
        cmp_orig_criteria settings group).1 = pre ++ r :: post →
      r.hardlinked_original = some a →
      ∃ o ∈ pre, o.addr = a ∧ o.dev = r.dev ∧ o.node = r.node ∧
        o.hardlinked_original = none) ∧
    ((group.map RmFile.addr).Nodup →
      ((rm_file_list_remove_double_paths rm_util_basename rm_util_parent_node
        cmp_orig_criteria settings group).1.map RmFile.addr).Nodup) := by
  cases group with
  | nil =>
    refine ⟨?_, fun h => h⟩
    intro pre r post a h
    simp [rm_file_list_remove_double_paths] at h
  | cons file rest =>
    simp only [rm_file_list_remove_double_paths]
    constructor
    · intro pre r post a h hr
      have hres := @loop_links_resolved rm_util_basename rm_util_parent_node cmp_orig_criteria settings rest file 0 []
        (fun r hr => hnull r (List.mem_cons_of_mem _ hr))
        (fun a ha => by
          rw [hnull file (List.mem_cons_self _ _)] at ha
          exact absurd ha (by simp))
      obtain ⟨o, ho, rest⟩ := links_resolved_at _ [] hres pre r post a h hr
      rcases ho with ho | ho
      · exact absurd ho (by simp)
      · exact ⟨o, ho, rest⟩
    · intro hnodup
      have hsub := (@loop_sublist rm_util_basename rm_util_parent_node cmp_orig_criteria settings rest file 0).map RmFile.addr
      rw [List.map_map, List.map_map, addr_clear_link] at hsub
      exact hnodup.sublist hsub

/-- C6 at the hardlinks `/x/f`, `/y/f`, `/y/g` of one inode: both later records
point to the first. -/
theorem hardlink_reference_integrity_witness :
    rm_file_list_remove_double_paths sample_basename sample_parent_node sample_tie
      hardlink_settings [rec_xf 1, rec_yf 2, rec_yg 3] =
      ([rec_xf 1, { rec_yf 2 with hardlinked_original := some 1 },
        { rec_yg 3 with hardlinked_original := some 1 }], 0) ∧
    (∀ (pre : List RmFile) (r : RmFile) (post : List RmFile) (a : Nat),
      (rm_file_list_remove_double_paths sample_basename sample_parent_node sample_tie
        hardlink_settings [rec_xf 1, rec_yf 2, rec_yg 3]).1 = pre ++ r :: post →
      r.hardlinked_original = some a →
      ∃ o ∈ pre, o.addr = a ∧ o.dev = r.dev ∧ o.node = r.node ∧
        o.hardlinked_original = none) :=
  ⟨by decide,
    (hardlink_reference_integrity sample_basename sample_parent_node sample_tie
      hardlink_settings [rec_xf 1, rec_yf 2, rec_yg 3] (by decide)).1⟩

/-- C8: a second run of `rm_file_list_remove_double_paths`, on the group that a
first run produced, returns 0 and removes no record: the group keeps its
length and its records in their order (the run may still write
`hardlinked_original`).  This holds for every group, sorted or not. -/
theorem second_run_removes_nothing (settings : RmSettings) (group : List RmFile) :
    (rm_file_list_remove_double_paths rm_util_basename rm_util_parent_node
      cmp_orig_criteria settings
      (rm_file_list_remove_double_paths rm_util_basename rm_util_parent_node
        cmp_orig_criteria settings group).1).2 = 0 ∧
    (rm_file_list_remove_double_paths rm_util_basename rm_util_parent_node
      cmp_orig_criteria settings
      (rm_file_list_remove_double_paths rm_util_basename rm_util_parent_node
        cmp_orig_criteria settings group).1).1.length =
      (rm_file_list_remove_double_paths rm_util_basename rm_util_parent_node
        cmp_orig_criteria settings group).1.length ∧
    (rm_file_list_remove_double_paths rm_util_basename rm_util_parent_node
      cmp_orig_criteria settings
      (rm_file_list_remove_double_paths rm_util_basename rm_util_parent_node
        cmp_orig_criteria settings group).1).1.map clear_link =
      (rm_file_list_remove_double_paths rm_util_basename rm_util_parent_node
        cmp_orig_criteria settings group).1.map clear_link := by
  have hchain : List.Chain'
      (fun a b => ¬ treated_as_alias rm_util_basename rm_util_parent_node settings a b)
      (rm_file_list_remove_double_paths rm_util_basename rm_util_parent_node
        cmp_orig_criteria settings group).1 := by
    cases group with
    | nil => simp [rm_file_list_remove_double_paths]
    | cons file rest =>
      exact loop_no_adjacent_alias settings rest file 0
  generalize (rm_file_list_remove_double_paths rm_util_basename rm_util_parent_node
    cmp_orig_criteria settings group).1 = first at hchain
  cases first with
  | nil => simp [rm_file_list_remove_double_paths]
  | cons file rest =>
    simp only [rm_file_list_remove_double_paths]
    obtain ⟨h1, h2⟩ := @loop_removes_nothing _ _ cmp_orig_criteria
      settings rest file 0 hchain
    refine ⟨h1, ?_, h2⟩
    have := congrArg List.length h2
    simpa using this

/-- C1 fails on the code: with hardlink-aware settings, the group `/x/f`, `/y/f`,
`/x/f` (one inode, the entry `/x/f` reached twice with its hardlink `/y/f` in
between) is in `rm_file_list_cmp_file` order and is left as it is by the sort,
no adjacent pair is a path alias, and all three records survive: the first and
the third have the same device, inode, basename and parent-directory inode. -/
theorem same_entry_survives_twice :
    List.Pairwise (fun a b => rm_file_list_cmp_file sample_basename a b ≤ 0)
      [rec_xf 1, rec_yf 2, rec_xf 3] ∧
    g_queue_sort (rm_file_list_cmp_file sample_basename) [rec_xf 1, rec_yf 2, rec_xf 3] =
      [rec_xf 1, rec_yf 2, rec_xf 3] ∧
    rm_file_list_remove_double_paths sample_basename sample_parent_node sample_tie
      hardlink_settings [rec_xf 1, rec_yf 2, rec_xf 3] =
      ([rec_xf 1, { rec_yf 2 with hardlinked_original := some 1 },
        { rec_xf 3 with hardlinked_original := some 1 }], 0) ∧
    (rec_xf 1).dev = (rec_xf 3).dev ∧ (rec_xf 1).node = (rec_xf 3).node ∧
    sample_basename (rec_xf 1).path = sample_basename (rec_xf 3).path ∧
    sample_parent_node (rec_xf 1).path = sample_parent_node (rec_xf 3).path ∧
    (rec_xf 1).addr ≠ (rec_xf 3).addr := by
  decide

/-- C5 fails on the code: with hardlink-aware settings and a tie comparator, the
sorted group `/x/f`, `/y/f`, `/y/f` (one inode) first links the second record to
the first, then removes the second as an alias of the third; the third record
survives behind the first one, with the same device and inode, and its
`hardlinked_original` is still null. -/
theorem later_hardlink_left_unlinked :
    List.Pairwise (fun a b => rm_file_list_cmp_file sample_basename a b ≤ 0)
      [rec_xf 1, rec_yf 2, rec_yf 3] ∧
    g_queue_sort (rm_file_list_cmp_file sample_basename) [rec_xf 1, rec_yf 2, rec_yf 3] =
      [rec_xf 1, rec_yf 2, rec_yf 3] ∧
    rm_file_list_remove_double_paths sample_basename sample_parent_node sample_tie
      hardlink_settings [rec_xf 1, rec_yf 2, rec_yf 3] = ([rec_xf 1, rec_yf 3], 1) ∧
    (rec_xf 1).dev = (rec_yf 3).dev ∧ (rec_xf 1).node = (rec_yf 3).node ∧
    (rec_yf 3).hardlinked_original = none := by
  decide

/-- C20: alias resolution never loses a physical file.  For every non-empty
group, settings value and comparator, the group after
`rm_file_list_remove_double_paths` is not empty, and every (device, inode)
pair of the input group is carried by at least one surviving record. -/
theorem alias_resolution_keeps_every_file (settings : RmSettings) (group : List RmFile)
    (hne : group ≠ []) :
    (rm_file_list_remove_double_paths rm_util_basename rm_util_parent_node
      cmp_orig_criteria settings group).1 ≠ [] ∧
    ∀ x ∈ group, ∃ y ∈ (rm_file_list_remove_double_paths rm_util_basename
      rm_util_parent_node cmp_orig_criteria settings group).1,
      y.dev = x.dev ∧ y.node = x.node := by
  cases group with
  | nil => exact absurd rfl hne
  | cons file rest =>
    simp only [rm_file_list_remove_double_paths]
    refine ⟨?_, loop_keeps_files settings rest file 0⟩
    have h := (@loop_length_bounds rm_util_basename rm_util_parent_node cmp_orig_criteria
      settings rest file 0).1
    intro hnil
    rw [hnil] at h
    simp at h

/-- C20 at the group `/x/f`, `/x/f`, `/y/f`, `/z/h`: inode 5 and inode 7 both
stay. -/
theorem alias_resolution_keeps_every_file_witness :
    rm_file_list_remove_double_paths sample_basename sample_parent_node sample_tie
      ⟨false, false, false⟩ [rec_xf 1, rec_xf 2, rec_yf 3, rec_zh 4] =
      ([rec_yf 3, rec_zh 4], 2) ∧
    ∀ x ∈ [rec_xf 1, rec_xf 2, rec_yf 3, rec_zh 4],
      ∃ y ∈ (rm_file_list_remove_double_paths sample_basename sample_parent_node sample_tie
        ⟨false, false, false⟩ [rec_xf 1, rec_xf 2, rec_yf 3, rec_zh 4]).1,
        y.dev = x.dev ∧ y.node = x.node :=
  ⟨by decide,
    (alias_resolution_keeps_every_file sample_basename sample_parent_node sample_tie
      ⟨false, false, false⟩ [rec_xf 1, rec_xf 2, rec_yf 3, rec_zh 4] (by decide)).2⟩

end Resolution

/-! ## Group admission: `rm_file_list_sort_groups` -/

section Admission

variable (rm_util_basename : String → String)
variable (rm_util_parent_node : String → Nat)
variable (cmp_orig_criteria : RmFile → RmFile → Int)

/-- Inserting a non-empty group among non-empty groups succeeds and yields
non-empty groups. -/
theorem insert_sorted_of_nonempty (x : List RmFile) (hx : x ≠ []) (l : List (List RmFile))
    (hl : ∀ g ∈ l, g ≠ []) :
    ∃ r, g_sequence_insert_sorted rm_file_list_cmp_file_size x l = some r ∧
      ∀ g ∈ r, g ≠ [] := by
  induction l with
  | nil =>
    refine ⟨[x], rfl, ?_⟩
    intro g hg
    rw [List.mem_singleton.1 hg]
    exact hx
  | cons y ys ih =>
    obtain ⟨r, hr, hrne⟩ := ih (fun g hg => hl g (List.mem_cons_of_mem _ hg))
    obtain ⟨fa, ta, rfl⟩ := List.exists_cons_of_ne_nil hx
    obtain ⟨fb, tb, rfl⟩ := List.exists_cons_of_ne_nil (hl y (List.mem_cons_self _ _))
    simp only [g_sequence_insert_sorted, rm_file_list_cmp_file_size]
    generalize (if fa.fsize > fb.fsize then (1 : Int)
      else if fa.fsize = fb.fsize then 0 else -1) = cval
    by_cases hle : cval ≤ 0
    · simp only [hle, if_true]
      refine ⟨_, rfl, ?_⟩
      intro g hg
      rcases List.mem_cons.1 hg with rfl | hg
      · exact hx
      · exact hl g hg
    · simp only [hle, if_false, hr, Option.map_some']
      refine ⟨(fb :: tb) :: r, rfl, ?_⟩
      intro g hg
      rcases List.mem_cons.1 hg with rfl | hg
      · simp
      · exact hrne g hg

/-- The size sort succeeds on a store without empty groups. -/
theorem sequence_sort_of_nonempty (l : List (List RmFile)) (hl : ∀ g ∈ l, g ≠ []) :
    ∃ r, g_sequence_sort rm_file_list_cmp_file_size l = some r ∧ ∀ g ∈ r, g ≠ [] := by
  induction l with
  | nil => exact ⟨[], rfl, by simp⟩
  | cons x xs ih =>
    obtain ⟨r, hr, hrne⟩ := ih (fun g hg => hl g (List.mem_cons_of_mem _ hg))
    obtain ⟨r2, hr2, hr2ne⟩ :=
      insert_sorted_of_nonempty x (hl x (List.mem_cons_self _ _)) r hrne
    exact ⟨r2, by simp only [g_sequence_sort, hr, Option.some_bind, hr2], hr2ne⟩

/-- Every group that the admission loop keeps has two members or more. -/
theorem sort_groups_loop_two_members (settings : RmSettings) (groups : List (List RmFile)) :
    ∀ c : Nat, ∀ g ∈ (sort_groups_loop rm_util_basename rm_util_parent_node
      cmp_orig_criteria settings groups c).1, 2 ≤ g.length := by
  induction groups with
  | nil =>
    intro c g hg
    simp [sort_groups_loop] at hg
  | cons queue later ih =>
    intro c g hg
    simp only [sort_groups_loop] at hg
    split_ifs at hg with h1 h2 h3
    · exact ih _ g hg
    · rcases List.mem_cons.1 hg with rfl | hg
      · push_neg at h2
        omega
      · exact ih _ g hg
    · exact ih _ g hg
    · rcases List.mem_cons.1 hg with rfl | hg
      · push_neg at h3
        have := h3.1
        simp only [List.length] at this ⊢
        omega
      · exact ih _ g hg

theorem size_sign_le (a b : Nat) :
    (if a > b then (1 : Int) else if a = b then 0 else -1) ≤ 0 ↔ a ≤ b := by
  split_ifs <;> omega

theorem mem_g_list_insert_sorted {α : Type} (cmp : α → α → Int) (x y : α) (l : List α) :
    y ∈ g_list_insert_sorted cmp x l ↔ y = x ∨ y ∈ l := by
  induction l with
  | nil => simp [g_list_insert_sorted]
  | cons z zs ih =>
    simp only [g_list_insert_sorted]
    split_ifs
    · simp
    · simp only [List.mem_cons, ih]
      tauto

theorem mem_g_queue_sort {α : Type} (cmp : α → α → Int) (y : α) (l : List α) :
    y ∈ g_queue_sort cmp l ↔ y ∈ l := by
  induction l with
  | nil => simp [g_queue_sort]
  | cons z zs ih =>
    simp only [g_queue_sort, mem_g_list_insert_sorted, ih, List.mem_cons]

/-- Inserting a group among groups in ascending order of size keeps the order,
when every group is non-empty and holds files of one size. -/
theorem insert_sorted_by_size (x : List RmFile) (hx : x ≠ [])
    (hxu : ∀ a ∈ x, ∀ b ∈ x, a.fsize = b.fsize) (l : List (List RmFile))
    (hl : ∀ g ∈ l, g ≠ []) (hlu : ∀ g ∈ l, ∀ a ∈ g, ∀ b ∈ g, a.fsize = b.fsize)
    (hs : List.Pairwise (fun g h : List RmFile => ∀ a ∈ g, ∀ b ∈ h, a.fsize ≤ b.fsize) l) :
    ∃ r, g_sequence_insert_sorted rm_file_list_cmp_file_size x l = some r ∧
      (∀ g, g ∈ r ↔ g = x ∨ g ∈ l) ∧
      List.Pairwise (fun g h : List RmFile => ∀ a ∈ g, ∀ b ∈ h, a.fsize ≤ b.fsize) r := by
  induction l with
  | nil => exact ⟨[x], rfl, by simp, by simp⟩
  | cons y ys ih =>
    obtain ⟨r, hr, hrm, hrs⟩ := ih (fun g hg => hl g (List.mem_cons_of_mem _ hg))
      (fun g hg => hlu g (List.mem_cons_of_mem _ hg)) (List.Pairwise.of_cons hs)
    obtain ⟨fa, ta, rfl⟩ := List.exists_cons_of_ne_nil hx
    obtain ⟨fb, tb, rfl⟩ := List.exists_cons_of_ne_nil (hl y (List.mem_cons_self _ _))
    have hyu := hlu (fb :: tb) (List.mem_cons_self _ _)
    have hys := (List.pairwise_cons.1 hs).1
    simp only [g_sequence_insert_sorted, rm_file_list_cmp_file_size, size_sign_le]
    by_cases hle : fa.fsize ≤ fb.fsize
    · simp only [hle, if_true]
      refine ⟨_, rfl, fun g => List.mem_cons, ?_⟩
      refine List.Pairwise.cons ?_ hs
      intro z hz a ha b hb
      have h1 : a.fsize = fa.fsize := hxu a ha fa (List.mem_cons_self _ _)
      rcases List.mem_cons.1 hz with rfl | hz
      · have h2 : b.fsize = fb.fsize := hyu b hb fb (List.mem_cons_self _ _)
        omega
      · have h3 := hys z hz fb (List.mem_cons_self _ _) b hb
        omega
    · simp only [hle, if_false, hr, Option.map_some']
      refine ⟨(fb :: tb) :: r, rfl, ?_, ?_⟩
      · intro g
        simp only [List.mem_cons, hrm]
        tauto
      · refine List.Pairwise.cons ?_ hrs
        intro z hz a ha b hb
        rcases (hrm z).1 hz with rfl | hz
        · have h1 : a.fsize = fb.fsize := hyu a ha fb (List.mem_cons_self _ _)
          have h2 : b.fsize = fa.fsize := hxu b hb fa (List.mem_cons_self _ _)
          omega
        · exact hys z hz a ha b hb

/-- The size sort succeeds on a store of non-empty groups of one size each, and
leaves the same groups in ascending order of size. -/
theorem sequence_sort_by_size (l : List (List RmFile)) (hl : ∀ g ∈ l, g ≠ [])
    (hlu : ∀ g ∈ l, ∀ a ∈ g, ∀ b ∈ g, a.fsize = b.fsize) :
    ∃ r, g_sequence_sort rm_file_list_cmp_file_size l = some r ∧ (∀ g, g ∈ r ↔ g ∈ l) ∧
      List.Pairwise (fun g h : List RmFile => ∀ a ∈ g, ∀ b ∈ h, a.fsize ≤ b.fsize) r := by
  induction l with
  | nil => exact ⟨[], rfl, by simp, by simp⟩
  | cons x xs ih =>
    obtain ⟨r, hr, hrm, hrs⟩ := ih (fun g hg => hl g (List.mem_cons_of_mem _ hg))
      (fun g hg => hlu g (List.mem_cons_of_mem _ hg))
    obtain ⟨r2, hr2, hrm2, hrs2⟩ := insert_sorted_by_size x (hl x (List.mem_cons_self _ _))
      (hlu x (List.mem_cons_self _ _)) r
      (fun g hg => hl g (List.mem_cons_of_mem _ ((hrm g).1 hg)))
      (fun g hg => hlu g (List.mem_cons_of_mem _ ((hrm g).1 hg))) hrs
    refine ⟨r2, by simp only [g_sequence_sort, hr, Option.some_bind, hr2], ?_, hrs2⟩
    intro g
    simp only [hrm2, hrm, List.mem_cons]

/-- One turn of the admission loop, in terms of `resolved_group`. -/
theorem sort_groups_loop_cons (settings : RmSettings) (queue : List RmFile)
    (later : List (List RmFile)) (c : Nat) :
    (sort_groups_loop rm_util_basename rm_util_parent_node cmp_orig_criteria settings
      (queue :: later) c).1 =
      (sort_groups_loop rm_util_basename rm_util_parent_node cmp_orig_criteria settings later
        ((c + (resolved_group rm_util_basename rm_util_parent_node cmp_orig_criteria
          settings queue).2) % 2 ^ 64)).1 ∨
    (sort_groups_loop rm_util_basename rm_util_parent_node cmp_orig_criteria settings
      (queue :: later) c).1 =
      (resolved_group rm_util_basename rm_util_parent_node cmp_orig_criteria
          settings queue).1 ::
        (sort_groups_loop rm_util_basename rm_util_parent_node cmp_orig_criteria settings later
          ((c + (resolved_group rm_util_basename rm_util_parent_node cmp_orig_criteria
            settings queue).2) % 2 ^ 64)).1 := by
  simp only [sort_groups_loop, resolved_group]
  split_ifs <;> simp

/-- The files of a resolved group have sizes found in the group it came from. -/
theorem resolved_group_sizes (settings : RmSettings) (queue : List RmFile) :
    ∀ b ∈ (resolved_group rm_util_basename rm_util_parent_node cmp_orig_criteria
      settings queue).1, ∃ x ∈ queue, x.fsize = b.fsize := by
  intro b hb
  simp only [resolved_group] at hb
  split_ifs at hb with hlen
  · cases hq : g_queue_sort (rm_file_list_cmp_file rm_util_basename) queue with
    | nil =>
      rw [hq] at hb
      simp [rm_file_list_remove_double_paths] at hb
    | cons file rest =>
      rw [hq] at hb
      simp only [rm_file_list_remove_double_paths] at hb
      obtain ⟨x, hx, hxb⟩ := loop_mem settings rest file 0 b hb
      rw [← hq, mem_g_queue_sort] at hx
      exact ⟨x, hx, clear_link_fsize hxb⟩
  · exact ⟨b, hb, rfl⟩

/-- Every group kept by the admission loop comes from one of the groups given. -/
theorem sort_groups_loop_origin (settings : RmSettings) (groups : List (List RmFile)) :
    ∀ c : Nat, ∀ h ∈ (sort_groups_loop rm_util_basename rm_util_parent_node
      cmp_orig_criteria settings groups c).1,
      ∃ q ∈ groups, ∀ b ∈ h, ∃ x ∈ q, x.fsize = b.fsize := by
  induction groups with
  | nil =>
    intro c h hh
    simp [sort_groups_loop] at hh
  | cons queue later ih =>
    intro c h hh
    rcases sort_groups_loop_cons rm_util_basename rm_util_parent_node cmp_orig_criteria
      settings queue later c with heq | heq
    · rw [heq] at hh
      obtain ⟨q, hq, hqb⟩ := ih _ h hh
      exact ⟨q, List.mem_cons_of_mem _ hq, hqb⟩
    · rw [heq] at hh
      rcases List.mem_cons.1 hh with rfl | hh
      · exact ⟨queue, List.mem_cons_self _ _,
          resolved_group_sizes rm_util_basename rm_util_parent_node cmp_orig_criteria
            settings queue⟩
      · obtain ⟨q, hq, hqb⟩ := ih _ h hh
        exact ⟨q, List.mem_cons_of_mem _ hq, hqb⟩

/-- The admission loop keeps groups in ascending order of size. -/
theorem sort_groups_loop_sorted (settings : RmSettings) (groups : List (List RmFile)) :
    ∀ c : Nat,
      List.Pairwise (fun g h : List RmFile => ∀ a ∈ g, ∀ b ∈ h, a.fsize ≤ b.fsize) groups →
      List.Pairwise (fun g h : List RmFile => ∀ a ∈ g, ∀ b ∈ h, a.fsize ≤ b.fsize)
        (sort_groups_loop rm_util_basename rm_util_parent_node cmp_orig_criteria
          settings groups c).1 := by
  induction groups with
  | nil =>
    intro c _
    simp [sort_groups_loop]
  | cons queue later ih =>
    intro c hs
    rcases sort_groups_loop_cons rm_util_basename rm_util_parent_node cmp_orig_criteria
      settings queue later c with heq | heq
    · rw [heq]
      exact ih _ (List.Pairwise.of_cons hs)
    · rw [heq]
      refine List.Pairwise.cons ?_ (ih _ (List.Pairwise.of_cons hs))
      intro h hh a ha b hb
      obtain ⟨q, hq, hqb⟩ := sort_groups_loop_origin rm_util_basename rm_util_parent_node
        cmp_orig_criteria settings later _ h hh
      obtain ⟨x, hx, hxa⟩ := resolved_group_sizes rm_util_basename rm_util_parent_node
        cmp_orig_criteria settings queue a ha
      obtain ⟨y, hy, hyb⟩ := hqb b hb
      have := (List.pairwise_cons.1 hs).1 q hq x hx y hy
      omega

/-- C14: on a store whose groups are all non-empty (each holding files of one
size, as groups do), `rm_file_list_sort_groups` returns, and the groups it
leaves are in ascending order of file size: every file of a group is at most as
large as every file of a later group.  `rm_file_list_cmp_file_size` returns -1,
0 or 1 as the sizes of the two first members compare. -/
theorem groups_left_in_ascending_size (settings : RmSettings) (list : RmFileList)
    (hne : ∀ g ∈ list.size_groups, g ≠ [])
    (hsize : ∀ g ∈ list.size_groups, ∀ a ∈ g, ∀ b ∈ g, a.fsize = b.fsize) :
    (∃ (out : RmFileList) (cnt : Nat),
      rm_file_list_sort_groups rm_util_basename rm_util_parent_node cmp_orig_criteria
        settings list = some (out, cnt) ∧
      List.Pairwise (fun g h : List RmFile => ∀ a ∈ g, ∀ b ∈ h, a.fsize ≤ b.fsize)
        out.size_groups ∧
      ∀ g ∈ out.size_groups, 2 ≤ g.length) ∧
    ∀ (fa fb : RmFile) (ta tb : List RmFile),
      rm_file_list_cmp_file_size (fa :: ta) (fb :: tb) =
        some (if fa.fsize < fb.fsize then -1 else if fa.fsize = fb.fsize then 0 else 1) := by
  constructor
  · obtain ⟨r, hr, hrm, hrs⟩ := sequence_sort_by_size list.size_groups hne hsize
    simp only [rm_file_list_sort_groups, hr]
    exact ⟨_, _, rfl,
      sort_groups_loop_sorted rm_util_basename rm_util_parent_node cmp_orig_criteria
        settings r 0 hrs,
      sort_groups_loop_two_members rm_util_basename rm_util_parent_node cmp_orig_criteria
        settings r 0⟩
  · intro fa fb ta tb
    simp only [rm_file_list_cmp_file_size]
    congr 1
    split_ifs <;> first | rfl | omega

/-- C14 at a store of three groups given in the order of sizes 200, 50, 100: the
group of size 50 has one member and goes, the other two stay, size 100 first. -/
theorem groups_left_in_ascending_size_witness :
    rm_file_list_sort_groups sample_basename sample_parent_node sample_tie
      hardlink_settings
      { size_groups := [[with_size 200 (rec_xf 4), with_size 200 (rec_zh 5)],
          [with_size 50 (rec_zh 3)], [rec_xf 1, rec_zh 2]] } =
      some ({ size_groups := [[rec_xf 1, rec_zh 2],
          [with_size 200 (rec_xf 4), with_size 200 (rec_zh 5)]] }, 0) ∧
    ∃ (out : RmFileList) (cnt : Nat),
      rm_file_list_sort_groups sample_basename sample_parent_node sample_tie
        hardlink_settings
        { size_groups := [[with_size 200 (rec_xf 4), with_size 200 (rec_zh 5)],
            [with_size 50 (rec_zh 3)], [rec_xf 1, rec_zh 2]] } = some (out, cnt) ∧
      List.Pairwise (fun g h : List RmFile => ∀ a ∈ g, ∀ b ∈ h, a.fsize ≤ b.fsize)
        out.size_groups ∧
      ∀ g ∈ out.size_groups, 2 ≤ g.length :=
  ⟨by decide,
    (groups_left_in_ascending_size sample_basename sample_parent_node sample_tie
      hardlink_settings
      { size_groups := [[with_size 200 (rec_xf 4), with_size 200 (rec_zh 5)],
          [with_size 50 (rec_zh 3)], [rec_xf 1, rec_zh 2]] } (by decide) (by decide)).1⟩

/-- C9: every group left in the store by `rm_file_list_sort_groups` has at least
two members, whatever the settings; and on a store without empty groups the
call does return a store. -/
theorem admitted_groups_have_two_members (settings : RmSettings) (list : RmFileList) :
    (∀ (out : RmFileList) (cnt : Nat),
      rm_file_list_sort_groups rm_util_basename rm_util_parent_node cmp_orig_criteria
        settings list = some (out, cnt) →
      ∀ g ∈ out.size_groups, 2 ≤ g.length) ∧
    ((∀ g ∈ list.size_groups, g ≠ []) →
      ∃ (out : RmFileList) (cnt : Nat),
        rm_file_list_sort_groups rm_util_basename rm_util_parent_node cmp_orig_criteria
          settings list = some (out, cnt)) := by
  constructor
  · intro out cnt h g hg
    simp only [rm_file_list_sort_groups] at h
    split at h
    · exact absurd h (by simp)
    · simp only [Option.some.injEq, Prod.mk.injEq] at h
      obtain ⟨rfl, -⟩ := h
      exact sort_groups_loop_two_members rm_util_basename rm_util_parent_node
        cmp_orig_criteria settings _ 0 g hg
  · intro hne
    obtain ⟨r, hr, -⟩ := sequence_sort_of_nonempty list.size_groups hne
    simp only [rm_file_list_sort_groups, hr]
    exact ⟨_, _, rfl⟩

/-- C9 at a store of three groups (sizes 100, 50 and 200): the single record of
size 50 and the group of size 200, which is the same path twice, are dropped;
the hardlink pair of size 100 stays. -/
theorem admitted_groups_have_two_members_witness :
    rm_file_list_sort_groups sample_basename sample_parent_node sample_tie
      hardlink_settings
      { size_groups := [[rec_xf 1, rec_yg 2], [with_size 50 (rec_zh 3)],
          [with_size 200 (rec_zh 4), with_size 200 (rec_zh 5)]] } =
      some ({ size_groups := [[rec_xf 1, { rec_yg 2 with hardlinked_original := some 1 }]] },
        1) ∧
    ∃ (out : RmFileList) (cnt : Nat),
      rm_file_list_sort_groups sample_basename sample_parent_node sample_tie
        hardlink_settings
        { size_groups := [[rec_xf 1, rec_yg 2], [with_size 50 (rec_zh 3)],
            [with_size 200 (rec_zh 4), with_size 200 (rec_zh 5)]] } = some (out, cnt) :=
  ⟨by decide,
    (admitted_groups_have_two_members sample_basename sample_parent_node sample_tie
      hardlink_settings
      { size_groups := [[rec_xf 1, rec_yg 2], [with_size 50 (rec_zh 3)],
          [with_size 200 (rec_zh 4), with_size 200 (rec_zh 5)]] }).2 (by decide)⟩

/-- C10 fails on the code: the counts are taken before alias resolution.  With
`must_match_original` and a tie comparator, the group `/x/f` (preferred), `/x/f`
and `/z/h` (both not preferred) loses its only preferred record as an alias and
is kept with no preferred member; with `keep_all_originals` and a comparator that
ranks preferred records first, the group `/x/f` (not preferred), `/x/f` and
`/z/h` (both preferred) loses its only non-preferred record and is kept with no
non-preferred member. -/
theorem admission_uses_counts_before_resolution :
    rm_file_list_sort_groups sample_basename sample_parent_node sample_tie
      ⟨true, true, false⟩
      { size_groups := [[preferred (rec_xf 1), rec_xf 2, rec_zh 3]] } =
      some ({ size_groups := [[rec_xf 2, rec_zh 3]] }, 1) ∧
    (rec_xf 2).in_ppath = false ∧ (rec_zh 3).in_ppath = false ∧
    rm_file_list_sort_groups sample_basename sample_parent_node sample_prefer_ppath
      ⟨true, false, true⟩
      { size_groups := [[rec_xf 1, preferred (rec_xf 2), preferred (rec_zh 3)]] } =
      some ({ size_groups := [[preferred (rec_xf 2), preferred (rec_zh 3)]] }, 1) ∧
    (preferred (rec_xf 2)).in_ppath = true ∧ (preferred (rec_zh 3)).in_ppath = true := by
  decide

end Admission

/-! ## The store: removal, iteration, locking -/

section Store

/-- What `rm_file_list_remove` does get right: the record is unlinked from its
group, every other record and group stays in place, the lock is released, and
`size_table` is untouched while the group keeps a member. -/
theorem remove_unlinks_record (GINT_TO_POINTER : Nat → Nat) (list : RmFileList)
    (gi fi : Nat) (group : List RmFile) (record : RmFile)
    (hg : list.size_groups[gi]? = some group) (hr : group[fi]? = some record) :
    ∃ out, rm_file_list_remove GINT_TO_POINTER list (gi, fi) = some out ∧
      out.size_groups = list.size_groups.set gi (group.eraseIdx fi) ∧
      out.lock = list.lock ∧
      (2 ≤ group.length → out.size_table = list.size_table) := by
  simp only [rm_file_list_remove, g_rec_mutex_lock, g_rec_mutex_unlock, hg, hr]
  split_ifs with h
  · refine ⟨_, rfl, rfl, by simp, ?_⟩
    intro h2
    have hfi : fi < group.length := by
      by_contra hc
      rw [List.getElem?_eq_none (by omega)] at hr
      exact absurd hr (by simp)
    rw [List.length_eraseIdx_of_lt hfi] at h
    omega
  · exact ⟨_, rfl, rfl, by simp, fun _ => rfl⟩

/-- One call of the iterator after a record that has a successor in its group. -/
theorem iter_all_next_in_group (list : RmFileList) (gi fi : Nat) (group : List RmFile)
    (hg : list.size_groups[gi]? = some group) (hfi : fi + 1 < group.length) :
    rm_file_list_iter_all list (some (gi, fi)) =
      some (some (gi, fi + 1), g_rec_mutex_lock list) := by
  simp [rm_file_list_iter_all, g_rec_mutex_lock, hg, hfi]

/-- One call of the iterator after the last record of the last group. -/
theorem iter_all_at_end (list : RmFileList) (gi fi : Nat) (group : List RmFile)
    (hg : list.size_groups[gi]? = some group) (hfi : ¬ fi + 1 < group.length)
    (hnext : list.size_groups[gi + 1]? = none) :
    rm_file_list_iter_all list (some (gi, fi)) =
      some (none, g_rec_mutex_unlock (g_rec_mutex_lock list)) := by
  simp [rm_file_list_iter_all, g_rec_mutex_lock, hg, hfi, hnext]

/-- One call of the iterator after the last record of a group that has a
non-empty group behind it. -/
theorem iter_all_next_group (list : RmFileList) (gi fi : Nat) (group : List RmFile)
    (head : RmFile) (tail : List RmFile)
    (hg : list.size_groups[gi]? = some group) (hfi : ¬ fi + 1 < group.length)
    (hnext : list.size_groups[gi + 1]? = some (head :: tail)) :
    rm_file_list_iter_all list (some (gi, fi)) =
      some (some (gi + 1, 0), g_rec_mutex_unlock (g_rec_mutex_lock list)) := by
  simp [rm_file_list_iter_all, g_rec_mutex_lock, hg, hfi, hnext]

/-- From any record on, the walk yields the rest of its group and then the
groups behind it, when no group is empty. -/
theorem iter_all_walk_from (groups : List (List RmFile)) (hne : ∀ g ∈ groups, g ≠ []) :
    ∀ (fuel : Nat) (list : RmFileList) (gi fi : Nat) (group : List RmFile),
      list.size_groups = groups → groups[gi]? = some group → fi < group.length →
      (group.drop (fi + 1) ++ (groups.drop (gi + 1)).flatten).length < fuel →
      iter_all_walk fuel list (some (gi, fi)) =
        some (group.drop (fi + 1) ++ (groups.drop (gi + 1)).flatten) := by
  intro fuel
  induction fuel with
  | zero =>
    intro list gi fi group _ _ _ hlen
    exact absurd hlen (by omega)
  | succ fuel ih =>
    intro list gi fi group hl hg hfi hlen
    have hg2 : list.size_groups[gi]? = some group := by rw [hl]; exact hg
    by_cases hnext : fi + 1 < group.length
    · have hdrop : group.drop (fi + 1) = group[fi + 1] :: group.drop (fi + 1 + 1) :=
        List.drop_eq_getElem_cons hnext
      have hfile : file_at (g_rec_mutex_lock list) (gi, fi + 1) = some group[fi + 1] := by
        simp [file_at, g_rec_mutex_lock, hg2, hnext]
      simp only [iter_all_walk, iter_all_next_in_group list gi fi group hg2 hnext, hfile]
      rw [ih (g_rec_mutex_lock list) gi (fi + 1) group hl hg hnext (by
        rw [hdrop] at hlen
        simp only [List.length_append, List.length_cons] at hlen ⊢
        omega)]
      rw [hdrop]
      rfl
    · have hdrop : group.drop (fi + 1) = [] := List.drop_eq_nil_of_le (by omega)
      cases hn : groups[gi + 1]? with
      | none =>
        have hrest : groups.drop (gi + 1) = [] := by
          apply List.drop_eq_nil_of_le
          by_contra hc
          rw [List.getElem?_eq_getElem (by omega)] at hn
          exact absurd hn (by simp)
        simp only [iter_all_walk, iter_all_at_end list gi fi group hg2 hnext (by rw [hl]; exact hn)]
        rw [hdrop, hrest]
        rfl
      | some next_group =>
        have hlt : gi + 1 < groups.length := by
          by_contra hc
          rw [List.getElem?_eq_none (by omega)] at hn
          exact absurd hn (by simp)
        have hget : groups[gi + 1] = next_group := by
          rw [List.getElem?_eq_getElem hlt] at hn
          exact Option.some.inj hn
        have hmem : next_group ∈ groups := List.mem_iff_getElem.2 ⟨gi + 1, hlt, hget⟩
        obtain ⟨head, tail, rfl⟩ := List.exists_cons_of_ne_nil (hne next_group hmem)
        have hrest : groups.drop (gi + 1) = (head :: tail) :: groups.drop (gi + 1 + 1) := by
          rw [List.drop_eq_getElem_cons hlt, hget]
        have hfile : file_at (g_rec_mutex_unlock (g_rec_mutex_lock list)) (gi + 1, 0) =
            some head := by
          simp [file_at, g_rec_mutex_lock, g_rec_mutex_unlock, hl, hn]
        simp only [iter_all_walk,
          iter_all_next_group list gi fi group head tail hg2 hnext (by rw [hl]; exact hn), hfile]
        rw [ih (g_rec_mutex_unlock (g_rec_mutex_lock list)) (gi + 1) 0 (head :: tail)
          (by simp [g_rec_mutex_lock, g_rec_mutex_unlock, hl]) hn (by simp) (by
            rw [hdrop, hrest] at hlen
            simp only [List.nil_append, List.flatten_cons, List.length_append,
              List.length_cons, List.drop_succ_cons, List.drop_zero] at hlen ⊢
            omega)]
        rw [hdrop, hrest]
        simp

/-- What `rm_file_list_iter_all` does get right: on a store with at least one
group and no empty group, the walk from `NULL` yields every record once, in
group order and then in the order inside the group, and ends. -/
theorem iter_all_walk_all (list : RmFileList) (hne : ∀ g ∈ list.size_groups, g ≠ [])
    (hsome : list.size_groups ≠ []) :
    iter_all_walk (list.size_groups.flatten.length + 1) list none =
      some list.size_groups.flatten := by
  obtain ⟨first, later, hgroups⟩ := List.exists_cons_of_ne_nil hsome
  obtain ⟨head, tail, rfl⟩ := List.exists_cons_of_ne_nil
    (hne first (by rw [hgroups]; exact List.mem_cons_self _ _))
  have hiter : rm_file_list_iter_all list none =
      some (some (0, 0), g_rec_mutex_unlock (g_rec_mutex_unlock (g_rec_mutex_lock
        (g_rec_mutex_lock list)))) := by
    simp [rm_file_list_iter_all, rm_file_list_get_iter, g_rec_mutex_lock,
      g_rec_mutex_unlock, hgroups]
  have hfile : file_at (g_rec_mutex_unlock (g_rec_mutex_unlock (g_rec_mutex_lock
      (g_rec_mutex_lock list)))) (0, 0) = some head := by
    simp [file_at, g_rec_mutex_lock, g_rec_mutex_unlock, hgroups]
  simp only [iter_all_walk, hiter, hfile]
  rw [iter_all_walk_from list.size_groups hne _ _ 0 0 (head :: tail)
    (by simp [g_rec_mutex_lock, g_rec_mutex_unlock]) (by rw [hgroups]; simp) (by simp) (by
      rw [hgroups]
      simp)]
  rw [hgroups]
  simp

/-- The table loop pushes the records of the walk, in the order of the walk. -/
theorem devlist_collect_of_walk (GINT_TO_POINTER : Nat → Nat) :
    ∀ (fuel : Nat) (list : RmFileList) (previous : Option (Nat × Nat))
      (table : List (Nat × List RmFile)) (files : List RmFile),
      iter_all_walk fuel list previous = some files →
      ∃ after, devlist_collect GINT_TO_POINTER fuel list previous table =
        some (files.foldl (fun t f => devlist_push_head (GINT_TO_POINTER f.dev) f t) table,
          after) := by
  intro fuel
  induction fuel with
  | zero =>
    intro list previous table files h
    simp [iter_all_walk] at h
  | succ fuel ih =>
    intro list previous table files h
    simp only [iter_all_walk] at h
    simp only [devlist_collect]
    cases hiter : rm_file_list_iter_all list previous with
    | none =>
      rw [hiter] at h
      exact absurd h (by simp)
    | some result =>
      obtain ⟨next, after⟩ := result
      rw [hiter] at h
      cases next with
      | none =>
        simp only [Option.some.injEq] at h
        subst h
        exact ⟨after, rfl⟩
      | some cursor =>
        simp only at h ⊢
        cases hfile : file_at after cursor with
        | none =>
          rw [hfile] at h
          exact absurd h (by simp)
        | some file =>
          rw [hfile] at h
          simp only at h ⊢
          cases hwalk : iter_all_walk fuel after (some cursor) with
          | none =>
            rw [hwalk] at h
            exact absurd h (by simp)
          | some later =>
            rw [hwalk] at h
            simp only [Option.map_some', Option.some.injEq] at h
            subst h
            exact ih after (some cursor)
              (devlist_push_head (GINT_TO_POINTER file.dev) file table) later hwalk

theorem devlist_push_head_keys (key : Nat) (file : RmFile) (table : List (Nat × List RmFile)) :
    (devlist_push_head key file table).map Prod.fst =
      if key ∈ table.map Prod.fst then table.map Prod.fst
      else table.map Prod.fst ++ [key] := by
  induction table with
  | nil => simp [devlist_push_head]
  | cons entry table ih =>
    obtain ⟨k, dev_list⟩ := entry
    simp only [devlist_push_head]
    by_cases hk : k = key
    · simp [hk]
    · have hk2 : ¬ key = k := fun h => hk h.symm
      simp only [hk, if_false, List.map_cons, ih, List.mem_cons, hk2, false_or]
      split_ifs <;> simp

theorem devlist_push_head_nodup (key : Nat) (file : RmFile)
    (table : List (Nat × List RmFile)) (h : (table.map Prod.fst).Nodup) :
    ((devlist_push_head key file table).map Prod.fst).Nodup := by
  rw [devlist_push_head_keys]
  split_ifs with hk
  · exact h
  · exact List.Nodup.append h (List.nodup_singleton key) (by
      intro a ha hb
      rw [List.mem_singleton] at hb
      exact hk (hb ▸ ha))

theorem devlist_push_head_perm (key : Nat) (file : RmFile)
    (table : List (Nat × List RmFile)) :
    List.Perm ((devlist_push_head key file table).map Prod.snd).flatten
      (file :: (table.map Prod.snd).flatten) := by
  induction table with
  | nil => simp [devlist_push_head]
  | cons entry table ih =>
    obtain ⟨k, dev_list⟩ := entry
    simp only [devlist_push_head]
    split_ifs with hk
    · simp
    · simp only [List.map_cons, List.flatten_cons]
      refine (List.Perm.append_left dev_list ih).trans ?_
      exact List.perm_middle

theorem devlist_push_head_keyed (GINT_TO_POINTER : Nat → Nat) (file : RmFile)
    (table : List (Nat × List RmFile))
    (h : ∀ e ∈ table, ∀ f ∈ e.2, GINT_TO_POINTER f.dev = e.1) :
    ∀ e ∈ devlist_push_head (GINT_TO_POINTER file.dev) file table,
      ∀ f ∈ e.2, GINT_TO_POINTER f.dev = e.1 := by
  induction table with
  | nil =>
    intro e he f hf
    simp only [devlist_push_head, List.mem_singleton] at he
    subst he
    simp only [List.mem_singleton] at hf
    rw [hf]
  | cons entry table ih =>
    obtain ⟨k, dev_list⟩ := entry
    intro e he f hf
    simp only [devlist_push_head] at he
    split_ifs at he with hk
    · rcases List.mem_cons.1 he with rfl | he
      · rcases List.mem_cons.1 hf with rfl | hf
        · exact hk.symm
        · exact h (k, dev_list) (List.mem_cons_self _ _) f hf
      · exact h e (List.mem_cons_of_mem _ he) f hf
    · rcases List.mem_cons.1 he with rfl | he
      · exact h (k, dev_list) (List.mem_cons_self _ _) f hf
      · exact ih (fun e he => h e (List.mem_cons_of_mem _ he)) e he f hf

/-- The table after pushing a list of records: distinct keys, every list under
the key of its records, and the records of all lists together are the records
pushed plus those there before. -/
theorem devlist_fold (GINT_TO_POINTER : Nat → Nat) (files : List RmFile) :
    ∀ table : List (Nat × List RmFile),
      (table.map Prod.fst).Nodup →
      (∀ e ∈ table, ∀ f ∈ e.2, GINT_TO_POINTER f.dev = e.1) →
      ((files.foldl (fun t f => devlist_push_head (GINT_TO_POINTER f.dev) f t) table).map
        Prod.fst).Nodup ∧
      (∀ e ∈ files.foldl (fun t f => devlist_push_head (GINT_TO_POINTER f.dev) f t) table,
        ∀ f ∈ e.2, GINT_TO_POINTER f.dev = e.1) ∧
      List.Perm
        ((files.foldl (fun t f => devlist_push_head (GINT_TO_POINTER f.dev) f t) table).map
          Prod.snd).flatten
        (files ++ (table.map Prod.snd).flatten) := by
  induction files with
  | nil =>
    intro table h1 h2
    exact ⟨h1, h2, by simp⟩
  | cons file files ih =>
    intro table h1 h2
    obtain ⟨k1, k2, k3⟩ := ih (devlist_push_head (GINT_TO_POINTER file.dev) file table)
      (devlist_push_head_nodup _ file table h1)
      (devlist_push_head_keyed GINT_TO_POINTER file table h2)
    refine ⟨k1, k2, ?_⟩
    simp only [List.foldl_cons, List.cons_append]
    refine k3.trans ?_
    refine (List.Perm.append_left files
      (devlist_push_head_perm (GINT_TO_POINTER file.dev) file table)).trans ?_
    exact List.perm_middle

theorem g_list_insert_sorted_perm {α : Type} (cmp : α → α → Int) (x : α) (l : List α) :
    List.Perm (g_list_insert_sorted cmp x l) (x :: l) := by
  induction l with
  | nil => simp [g_list_insert_sorted]
  | cons y ys ih =>
    simp only [g_list_insert_sorted]
    split_ifs
    · exact List.Perm.refl _
    · exact (List.Perm.cons y ih).trans (List.Perm.swap x y ys)

theorem g_queue_sort_perm {α : Type} (cmp : α → α → Int) (l : List α) :
    List.Perm (g_queue_sort cmp l) l := by
  induction l with
  | nil => simp [g_queue_sort]
  | cons x xs ih =>
    simp only [g_queue_sort]
    exact (g_list_insert_sorted_perm cmp x _).trans (List.Perm.cons x ih)

/-- What `rm_file_list_create_devlist_table` does get right: on a store with at
least one group and no empty group it returns a table with one list per key
`GINT_TO_POINTER(dev)`; every record of a list has the key of the list; and the
records of all lists together are the records of the store, each once, with
their offsets looked up. -/
theorem devlist_table_partitions (GINT_TO_POINTER : Nat → Nat)
    (rm_offset_lookup : Nat → Nat → Nat) (list : RmFileList)
    (hne : ∀ g ∈ list.size_groups, g ≠ []) (hsome : list.size_groups ≠ []) :
    ∃ table after,
      rm_file_list_create_devlist_table GINT_TO_POINTER rm_offset_lookup list =
        some (table, after) ∧
      (table.map Prod.fst).Nodup ∧
      (∀ e ∈ table, ∀ f ∈ e.2, GINT_TO_POINTER f.dev = e.1) ∧
      List.Perm (table.map Prod.snd).flatten
        (list.size_groups.flatten.map (fun file =>
          { file with offset := rm_offset_lookup file.disk_offsets file.hash_offset })) := by
  have hwalk := iter_all_walk_all (g_rec_mutex_lock list) hne hsome
  obtain ⟨after, hcollect⟩ := devlist_collect_of_walk GINT_TO_POINTER _ _ none [] _ hwalk
  obtain ⟨k1, k2, k3⟩ := devlist_fold GINT_TO_POINTER (g_rec_mutex_lock list).size_groups.flatten
    [] (by simp) (by simp)
  simp only [rm_file_list_create_devlist_table, hcollect]
  refine ⟨_, _, rfl, ?_, ?_, ?_⟩
  · simpa [List.map_map, Function.comp_def] using k1
  · intro e he f hf
    obtain ⟨e0, he0, rfl⟩ := List.mem_map.1 he
    simp only [rm_file_list_resort_device_offsets, if_true, mem_g_queue_sort,
      List.mem_map] at hf
    obtain ⟨f0, hf0, rfl⟩ := hf
    exact k2 e0 he0 f0 hf0
  · simp only [List.map_nil, List.flatten_nil, List.append_nil] at k3
    refine List.Perm.trans ?_ (k3.map _)
    generalize (List.foldl (fun t f => devlist_push_head (GINT_TO_POINTER f.dev) f t) []
      (g_rec_mutex_lock list).size_groups.flatten) = table
    induction table with
    | nil => simp
    | cons e table ih =>
      simp only [List.map_cons, List.flatten_cons, List.map_append]
      refine List.Perm.append ?_ ih
      simp only [rm_file_list_resort_device_offsets, if_true]
      exact g_queue_sort_perm _ _

/-- C11 fails on the code: removing the only member of the group of size 100
takes the size out of `size_table` but leaves the group's entry in the
sequence, now without members; `rm_file_list_len` is 2 before and after. -/
theorem remove_last_member_keeps_group_entry :
    rm_file_list_remove sample_gint_to_pointer
      { size_groups := [[rec_xf 1], [with_size 200 (rec_xf 2), with_size 200 (rec_zh 3)]],
        size_table := [100, 200] } (0, 0) =
      some { size_groups := [[], [with_size 200 (rec_xf 2), with_size 200 (rec_zh 3)]],
             size_table := [200] } ∧
    (rm_file_list_len
      { size_groups := [[rec_xf 1], [with_size 200 (rec_xf 2), with_size 200 (rec_zh 3)]],
        size_table := [100, 200] }).1 = 2 ∧
    (rm_file_list_len
      { size_groups := [[], [with_size 200 (rec_xf 2), with_size 200 (rec_zh 3)]],
        size_table := [200] }).1 = 2 := by
  decide

/-- C12 fails on the code: `rm_file_list_clear` of the only group, and the
rejection of a one-member group inside `rm_file_list_sort_groups`, take the
group out of the sequence and leave its size 100 in `size_table`. -/
theorem dropped_group_stays_in_size_table :
    rm_file_list_clear { size_groups := [[rec_xf 1, rec_zh 2]], size_table := [100] } 0 =
      { size_groups := [], size_table := [100] } ∧
    rm_file_list_sort_groups sample_basename sample_parent_node sample_tie hardlink_settings
      { size_groups := [[rec_xf 1]], size_table := [100] } =
      some ({ size_groups := [], size_table := [100] }, 0) := by
  decide

/-- C13 fails on the code: on the store with no groups the first call of
`rm_file_list_iter_all` dereferences a null group instead of returning `NULL`.
On the store of the groups `[a, b]` and `[c]` the calls yield `a`, `b`, `c` and
then `NULL`. -/
theorem iter_all_fails_on_empty_store :
    rm_file_list_iter_all { size_groups := [] } none = none ∧
    (rm_file_list_get_iter { size_groups := [] }).1 = 0 ∧
    ((rm_file_list_iter_all { size_groups := [[rec_xf 1, rec_yg 2], [with_size 50 (rec_zh 3)]] }
      none).map Prod.fst = some (some (0, 0))) ∧
    ((rm_file_list_iter_all { size_groups := [[rec_xf 1, rec_yg 2], [with_size 50 (rec_zh 3)]] }
      (some (0, 0))).map Prod.fst = some (some (0, 1))) ∧
    ((rm_file_list_iter_all { size_groups := [[rec_xf 1, rec_yg 2], [with_size 50 (rec_zh 3)]] }
      (some (0, 1))).map Prod.fst = some (some (1, 0))) ∧
    ((rm_file_list_iter_all { size_groups := [[rec_xf 1, rec_yg 2], [with_size 50 (rec_zh 3)]] }
      (some (1, 0))).map Prod.fst = some none) := by
  decide

/-- C15 fails on the code: with `forward = true` the three records of device 7
at offsets 300, 100, 200 end in the order 200, 100, 300, with or without the
offset refresh; and two records already in ascending order, 100 then 200, end
in descending order. -/
theorem forward_resort_not_ascending :
    rm_file_list_resort_device_offsets sample_gint_to_pointer sample_offset_lookup
      [rec_at_offset 1 300, rec_at_offset 2 100, rec_at_offset 3 200] true false =
      [rec_at_offset 3 200, rec_at_offset 2 100, rec_at_offset 1 300] ∧
    (rm_file_list_resort_device_offsets sample_gint_to_pointer sample_offset_lookup
      [rec_at_offset 1 300, rec_at_offset 2 100, rec_at_offset 3 200] true true).map
      RmFile.offset = [200, 100, 300] ∧
    (rm_file_list_resort_device_offsets sample_gint_to_pointer sample_offset_lookup
      [rec_at_offset 1 100, rec_at_offset 2 200] true false).map RmFile.offset =
      [200, 100] := by
  decide

/-- C16 fails on the code: on the store with no groups
`rm_file_list_create_devlist_table` does not return a table; its first call of
`rm_file_list_iter_all` dereferences a null group. -/
theorem devlist_table_fails_on_empty_store :
    rm_file_list_create_devlist_table sample_gint_to_pointer sample_offset_lookup
      { size_groups := [] } = none ∧
    rm_file_list_iter_all (g_rec_mutex_lock { size_groups := [] }) none = none := by
  decide

/-- C17 fails on the code: with `forward = true` the comparator returns 1 both
when the first offset is smaller and when it is larger; with `forward = false`
it returns 0 in both cases. -/
theorem offset_comparator_ignores_order :
    rm_file_list_cmp_file_offset (sample_gint_to_pointer 1)
      (rec_at_offset 1 100) (rec_at_offset 2 200) = 1 ∧
    rm_file_list_cmp_file_offset (sample_gint_to_pointer 1)
      (rec_at_offset 2 200) (rec_at_offset 1 100) = 1 ∧
    rm_file_list_cmp_file_offset (sample_gint_to_pointer 0)
      (rec_at_offset 1 100) (rec_at_offset 2 200) = 0 ∧
    rm_file_list_cmp_file_offset (sample_gint_to_pointer 0)
      (rec_at_offset 2 200) (rec_at_offset 1 100) = 0 := by
  decide

/-- C18 fails on the code: the inode difference is cut to 32 bits.  Inodes 1 and
`2^32 + 1` compare as equal; for inodes `2^31` and 0 the comparator is negative
in both directions; inodes 0, `2^31 - 1`, `2^32 - 2` are ranked 0 below
`2^31 - 1` below `2^32 - 2` below 0; and the group of inodes 1, `2^32 + 1`, 1
is left as it is by the sort, the two records of inode 1 apart. -/
theorem inode_comparison_wraps :
    rm_file_list_cmp_file sample_basename (rec_inode 1 1) (rec_inode 2 4294967297) = 0 ∧
    rm_file_list_cmp_file sample_basename (rec_inode 1 2147483648) (rec_inode 2 0) < 0 ∧
    rm_file_list_cmp_file sample_basename (rec_inode 2 0) (rec_inode 1 2147483648) < 0 ∧
    rm_file_list_cmp_file sample_basename (rec_inode 1 0) (rec_inode 2 2147483647) < 0 ∧
    rm_file_list_cmp_file sample_basename (rec_inode 2 2147483647) (rec_inode 3 4294967294) < 0 ∧
    rm_file_list_cmp_file sample_basename (rec_inode 3 4294967294) (rec_inode 1 0) < 0 ∧
    g_queue_sort (rm_file_list_cmp_file sample_basename)
      [rec_inode 1 1, rec_inode 2 4294967297, rec_inode 3 1] =
      [rec_inode 1 1, rec_inode 2 4294967297, rec_inode 3 1] := by
  decide

/-- C19 fails on the code: called with a `previous` that has a successor in its
own group, `rm_file_list_iter_all` returns at line 221 with the lock still held,
one level deeper than at entry; `rm_file_list_create_devlist_table`, which walks
the store with it, returns one level deeper as well. -/
theorem iter_all_returns_with_lock_held :
    rm_file_list_iter_all { size_groups := [[rec_xf 1, rec_yg 2]], lock := 0 } (some (0, 0)) =
      some (some (0, 1), { size_groups := [[rec_xf 1, rec_yg 2]], lock := 1 }) ∧
    (rm_file_list_create_devlist_table sample_gint_to_pointer sample_offset_lookup
      { size_groups := [[rec_xf 1, rec_yg 2]], lock := 0 }).map (fun r => r.2.lock) =
      some 1 := by
  decide

end Store

end RmLint
